import Mathlib

/-!
Verification of core components of the `reader` feed library against its
natural-language specification.

Strings are modelled as `List Char` (Python strings are sequences of code
points).  Python slices become the `PySlice` structure below; fallible
construction and parsing return `Except String`.
-/

set_option maxRecDepth 10000

namespace Reader

/-- Python `v[a:b]` for non-negative bounds: elements with index in `[a, b)`,
clamped to the list. -/
def pySub (v : List Char) (a b : Nat) : List Char :=
  (v.take b).drop a

/-- A Python `slice` object as stored in `HighlightedString.highlights`:
`start`, `stop` and `step` may each be `None`. -/
structure PySlice where
  start : Option Int
  stop : Option Int
  step : Option Int
deriving DecidableEq, Repr

/-- Build a slice from a pair of naturals (`slice(a, b)`). -/
def toSlice (p : Nat × Nat) : PySlice :=
  ⟨some (p.1 : Int), some (p.2 : Int), none⟩

/-- The per-highlight validation of `HighlightedString.__post_init__`
(types.py:190-208): returns the reason string of the first failing check,
or `none` if the slice is valid for a string of length `len`. -/
def highlightReason (len : Nat) (h : PySlice) : Option String :=
  if h.start = none || h.stop = none then
    some "start and stop must not be None"
  else if h.step ≠ none then
    some "step must be None"
  else if h.start.getD 0 < 0 || h.stop.getD 0 < 0 then
    some "start and stop must be equal to or greater than 0"
  else if h.start.getD 0 > (len : Int) || h.stop.getD 0 > (len : Int) then
    some "start and stop must be less than or equal to the string length"
  else if h.start.getD 0 > h.stop.getD 0 then
    some "start must be not be greater than stop"
  else
    none

/-- Validate each highlight in turn, raising on the first invalid one
(types.py:191-208). -/
def validateAll (len : Nat) : List PySlice → Except String Unit
  | [] => .ok ()
  | h :: t =>
    match highlightReason len h with
    | some r => .error ("invalid highlight: " ++ r)
    | none => validateAll len t

/-- Sort key used by `__post_init__`: `(s.start, s.stop)` (types.py:210).
The `getD 0` defaults are never reached: sorting happens only after
validation established `start`/`stop` are not `None`. -/
def sliceKey (h : PySlice) : Int × Int :=
  (h.start.getD 0, h.stop.getD 0)

/-- Lexicographic comparison on the sort key, as Python tuple `<=`. -/
def keyLe (x y : Int × Int) : Bool :=
  x.1 < y.1 || (x.1 = y.1 && x.2 ≤ y.2)

/-- Stable insertion of `x` into a sorted list: `x` goes before the first
element it compares `le` to, hence after earlier elements with an equal key. -/
def insertLe {α : Type} (le : α → α → Bool) (x : α) : List α → List α
  | [] => [x]
  | y :: ys => if le x y then x :: y :: ys else y :: insertLe le x ys

/-- Stable sort (insertion sort), modelling Python's stable `sorted`. -/
def pySorted {α : Type} (le : α → α → Bool) : List α → List α
  | [] => []
  | x :: xs => insertLe le x (pySorted le xs)

/-- Comparison used to sort highlights. -/
def sliceLe (x y : PySlice) : Bool :=
  keyLe (sliceKey x) (sliceKey y)

/-- The overlap check loop of `__post_init__` (types.py:212-221).
Note the source never reassigns `prev_highlight` after the first iteration
(a slice object is always truthy), so every later highlight is compared
against the FIRST highlight only. -/
def overlapCheckLoop (first : PySlice) : List PySlice → Except String Unit
  | [] => .ok ()
  | h :: t =>
    if first.stop.getD 0 > h.start.getD 0 then
      .error "highlights must not overlap"
    else
      overlapCheckLoop first t

/-- `HighlightedString.__post_init__` (types.py:190-223): validate every
highlight, sort by `(start, stop)`, run the overlap check, and store the
sorted highlights. -/
def postInit (value : List Char) (highlights : List PySlice) :
    Except String (List PySlice) := do
  validateAll value.length highlights
  let sorted := pySorted sliceLe highlights
  match sorted with
  | [] => pure sorted
  | first :: rest => do
    overlapCheckLoop first rest
    pure sorted

/-- `HighlightedString` (types.py:176-223): the underlying string and the
(validated, sorted) highlights. -/
structure HighlightedString where
  value : List Char
  highlights : List PySlice
deriving DecidableEq, Repr

/-- `HighlightedString(value, highlights)` construction, including
`__post_init__` validation. -/
def mkHS (value : List Char) (highlights : List PySlice) :
    Except String HighlightedString :=
  (postInit value highlights).map (fun hs => ⟨value, hs⟩)

/-- The generator body of `HighlightedString.split` (types.py:274-292),
with `start` the running plain-segment start. -/
def splitGo (v : List Char) (start : Nat) : List PySlice → List (List Char)
  | [] => [v.drop start]
  | h :: rest =>
    pySub v start (h.start.getD 0).toNat ::
    pySub v (h.start.getD 0).toNat (h.stop.getD 0).toNat ::
    splitGo v (h.stop.getD 0).toNat rest

/-- `HighlightedString.split` (types.py:274-292). -/
def HighlightedString.split (s : HighlightedString) : List (List Char) :=
  splitGo s.value 0 s.highlights

/-- The `inner` generator of `HighlightedString.apply` (types.py:317-325):
parts at odd indexes are wrapped in the markers; `func`, when given, is
applied to every part. -/
def applyGo (bef aft : List Char) (func : Option (List Char → List Char)) :
    Nat → List (List Char) → List Char
  | _, [] => []
  | idx, p :: rest =>
    (if idx % 2 = 1 then bef else []) ++
    (match func with | some f => f p | none => p) ++
    (if idx % 2 = 1 then aft else []) ++
    applyGo bef aft func (idx + 1) rest

/-- `HighlightedString.apply` (types.py:294-327). -/
def HighlightedString.apply (s : HighlightedString) (bef aft : List Char)
    (func : Option (List Char → List Char)) : List Char :=
  applyGo bef aft func 0 s.split

/-- Whether `p` is a prefix of `t` (list version of `str.startswith`). -/
def leadsWith : List Char → List Char → Bool
  | [], _ => true
  | _ :: _, [] => false
  | p :: ps, t :: ts => p = t && leadsWith ps ts

/-- Whether `needle` occurs as a contiguous substring of `hay`
(Python `needle in hay`). -/
def pyIn (needle : List Char) : List Char → Bool
  | [] => needle.isEmpty
  | c :: t => leadsWith needle (c :: t) || pyIn needle t

/-- `re.split` on the pattern `(bef|aft)` with literal alternatives, as used
by `HighlightedString.extract` (types.py:244-252): scan left to right, at
each position try `bef` first, then `aft`; matches become their own list
elements, the text between matches becomes the surrounding elements.
`cur` is the (reversed) pending non-match text.  `fuel` only makes the
recursion structural: every recursive call consumes at least one character
when a marker is non-empty, so `fuel = text.length` never runs out (the
empty-marker patterns, for which Python's `re.split` has different
empty-match semantics, are ruled out by the `≠ []` guards and are used by
no caller of `extract`). -/
def reSplitGo (bef aft : List Char) : Nat → List Char → List Char →
    List (List Char)
  | _, cur, [] => [cur.reverse]
  | 0, cur, _ :: _ => [cur.reverse]
  | fuel + 1, cur, c :: t =>
    if bef ≠ [] ∧ leadsWith bef (c :: t) then
      cur.reverse :: bef :: reSplitGo bef aft fuel [] ((c :: t).drop bef.length)
    else if aft ≠ [] ∧ leadsWith aft (c :: t) then
      cur.reverse :: aft :: reSplitGo bef aft fuel [] ((c :: t).drop aft.length)
    else
      reSplitGo bef aft fuel (c :: cur) t

/-- `re.split(pattern, text)` of `HighlightedString.extract`. -/
def reSplit (bef aft : List Char) (text : List Char) : List (List Char) :=
  reSplitGo bef aft text.length [] text

/-- The part-processing loop of `HighlightedString.extract`
(types.py:246-270): `parts` and `slices` are accumulated reversed;
`index` is the length of the marker-free text seen so far and `start`
the position of the currently open highlight, if any. -/
def extractLoop (bef aft : List Char) :
    List (List Char) → List (List Char) → Nat → Option Nat →
    List (Nat × Nat) → Except String (List (List Char) × List (Nat × Nat))
  | [], parts, _, start, slices =>
    match start with
    | some _ => .error "highlight is never closed"
    | none => .ok (parts.reverse, slices.reverse)
  | part :: ps, parts, index, start, slices =>
    if part = bef then
      match start with
      | some _ => .error "highlight start marker in highlight"
      | none => extractLoop bef aft ps parts index (some index) slices
    else if part = aft then
      match start with
      | none => .error "unmatched highlight end marker"
      | some s => extractLoop bef aft ps parts index none ((s, index) :: slices)
    else
      extractLoop bef aft ps (part :: parts) (index + part.length) start slices

/-- `HighlightedString.extract` (types.py:228-272): split on the markers,
replay the loop, and construct the result through `__post_init__`. -/
def HighlightedString.extract (text bef aft : List Char) :
    Except String HighlightedString := do
  let (parts, slices) ← extractLoop bef aft (reSplit bef aft text) [] 0 none []
  mkHS parts.flatten (slices.map toSlice)

/-! ## Query builder (`_sql_utils.py`) -/

/-- Python whitespace characters (the ASCII ones; all that occur here). -/
def pyIsSpace (c : Char) : Bool :=
  c = ' ' || c = '\t' || c = '\n' || c = '\r' || c = '\x0b' || c = '\x0c'

/-- `str.lstrip()`. -/
def pyLstrip (s : List Char) : List Char :=
  s.dropWhile pyIsSpace

/-- `str.rstrip()`. -/
def pyRstrip (s : List Char) : List Char :=
  (s.reverse.dropWhile pyIsSpace).reverse

/-- `str.strip()`. -/
def pyStrip (s : List Char) : List Char :=
  pyLstrip (pyRstrip s)

/-- `text.split('\n')`. -/
def splitNL : List Char → List (List Char)
  | [] => [[]]
  | c :: t =>
    if c = '\n' then [] :: splitNL t
    else
      match splitNL t with
      | [] => [[c]]
      | l :: ls => (c :: l) :: ls

/-- `'\n'.join(lines)`. -/
def joinNL : List (List Char) → List Char
  | [] => []
  | [l] => l
  | l :: ls => l ++ '\n' :: joinNL ls

/-- A line consisting solely of (at least one) space/tab characters:
`textwrap.dedent`'s `_whitespace_only_re`. -/
def wsOnly (l : List Char) : Bool :=
  !l.isEmpty && l.all (fun c => c = ' ' || c = '\t')

/-- Space or tab (the indentation characters `textwrap.dedent` considers). -/
def isTabSpace (c : Char) : Bool :=
  c = ' ' || c = '\t'

/-- Longest common prefix of two character lists; `textwrap.dedent`'s margin
update loop computes exactly this across all indents. -/
def commonPfx : List Char → List Char → List Char
  | [], _ => []
  | _ :: _, [] => []
  | x :: xs, y :: ys => if x = y then x :: commonPfx xs ys else []

/-- The common margin of a list of indents (`textwrap.dedent`'s loop). -/
def marginOf : List (List Char) → List Char
  | [] => []
  | i :: is => is.foldl commonPfx i

/-- `textwrap.dedent(text)`: whitespace-only lines are emptied, the common
leading space/tab margin of the remaining non-empty lines is computed, and
(when non-empty) that margin is removed from each line starting with it. -/
def pyDedent (text : List Char) : List Char :=
  let lines := splitNL text
  let lines1 := lines.map (fun l => if wsOnly l then [] else l)
  let margin := marginOf ((lines1.filter (fun l => !l.isEmpty)).map
    (fun l => l.takeWhile isTabSpace))
  if margin.isEmpty then joinNL lines1
  else joinNL (lines1.map
    (fun l => if leadsWith margin l then l.drop margin.length else l))

/-- `BaseQuery._clean_up` (_sql_utils.py:61-62):
`textwrap.dedent(thing.rstrip()).strip()`. -/
def cleanUp (thing : List Char) : List Char :=
  pyStrip (pyDedent (pyRstrip thing))

/-- A line with some non-whitespace character: `textwrap.indent`'s default
predicate `line.strip()`. -/
def hasNonWs (l : List Char) : Bool :=
  l.any (fun c => !pyIsSpace c)

/-- `BaseQuery._indent = textwrap.indent(text, '    ')` (_sql_utils.py:129):
prefix four spaces to every line that has a non-whitespace character. -/
def indentBlock (text : List Char) : List Char :=
  joinNL ((splitNL text).map
    (fun l => if hasNonWs l then ' ' :: ' ' :: ' ' :: ' ' :: l else l))

/-- `BaseQuery` data: an ordered dictionary from keyword to the list of
fragment groups, each group a 1- or 2-element list of strings. -/
abbrev BQ := List (List Char × List (List (List Char)))

/-- `OrderedDict` lookup. -/
def qGet (q : BQ) (kw : List Char) : Option (List (List (List Char))) :=
  match q with
  | [] => none
  | (k, v) :: t => if k = kw then some v else qGet t kw

/-- `OrderedDict` update: replace the value at an existing key in place, or
append a new key at the end (the effect of `setdefault` plus mutation). -/
def qSet (q : BQ) (kw : List Char) (v : List (List (List Char))) : BQ :=
  match q with
  | [] => [(kw, v)]
  | (k, w) :: t => if k = kw then (k, v) :: t else (k, w) :: qSet t kw v

/-- `BaseQuery.add` (_sql_utils.py:40-45): `setdefault(keyword, [])`, then
append each thing (a 1- or 2-tuple of strings), cleaning every component. -/
def addQ (q : BQ) (kw : List Char) (things : List (List (List Char))) : BQ :=
  qSet q kw ((qGet q kw).getD [] ++ things.map (fun th => th.map cleanUp))

/-- Python `str.isupper`: at least one cased character and no lowercase one
(restricted to upper/lower as the cased categories, enough for ASCII). -/
def pyIsUpper (s : List Char) : Bool :=
  s.any (fun c => c.isUpper || c.isLower) && s.all (fun c => !c.isLower)

/-- `BaseQuery.__getattr__` (_sql_utils.py:47-53): an all-uppercase name
becomes `functools.partial(self.add, name.replace('_', ' '))`; any other
name raises `AttributeError`.  Modelled with the argument list applied. -/
def getattrQ (q : BQ) (name : List Char) (things : List (List (List Char))) :
    Except String BQ :=
  if pyIsUpper name then
    .ok (addQ q (name.map (fun c => if c = '_' then ' ' else c)) things)
  else
    .error "AttributeError"

/-- `BaseQuery._keyword_order` (_sql_utils.py:107-122). -/
def keywordOrder : List (List Char) :=
  ["WITH".toList, "INSERT".toList, "VALUES".toList, "UPDATE".toList,
   "SET".toList, "DELETE".toList, "SELECT".toList, "FROM".toList,
   "JOIN".toList, "WHERE".toList, "GROUP BY".toList, "HAVING".toList,
   "ORDER BY".toList, "LIMIT".toList]

/-- `BaseQuery._fuzzy_keywords` (_sql_utils.py:99-105): the first matching
fuzzy rule replaces the keyword before the table lookup. -/
def fuzzyAdjust (kw : List Char) : List Char :=
  if pyIn "JOIN".toList kw then "JOIN".toList
  else if leadsWith "INSERT".toList kw then "INSERT".toList
  else if leadsWith "REPLACE".toList kw then "INSERT".toList
  else if leadsWith "UPDATE".toList kw then "UPDATE".toList
  else if leadsWith "DELETE".toList kw then "DELETE".toList
  else kw

/-- `BaseQuery._keyword_key` (_sql_utils.py:89-97): the index in the
precedence table, or `none` standing for `float('inf')`. -/
def keywordKey (kw : List Char) : Option Nat :=
  keywordOrder.findIdx? (fun k => k = fuzzyAdjust kw)

/-- Comparison on keyword keys; `none` is `float('inf')`, larger than all. -/
def optLe (x y : Option Nat) : Bool :=
  match x, y with
  | some i, some j => i ≤ j
  | some _, none => true
  | none, some _ => false
  | none, none => true

/-- The sort of `BaseQuery._lines` (_sql_utils.py:65):
`sorted(self.items(), key=...)` — stable, by keyword key. -/
def sortedPairs (q : BQ) : BQ :=
  pySorted (fun p1 p2 => optLe (keywordKey p1.1) (keywordKey p2.1)) q

/-- `BaseQuery._get_separator` (_sql_utils.py:131-137). -/
def getSeparator (kw : List Char) : List Char :=
  if pyIn "JOIN".toList kw then '\n' :: kw
  else if kw = "WHERE".toList || kw = "HAVING".toList then " AND".toList
  else ",".toList

/-- `BaseQuery._keyword_formats` applied to one fragment group
(_sql_utils.py:73-83,124-127): `KeyError` (as an `Except.error`) outside
the supported arities/keywords. -/
def fmtThing (kw : List Char) (mt : List (List Char)) :
    Except String (List Char) :=
  match mt with
  | [t] => .ok t
  | [nm, t] =>
    if kw = "SELECT".toList then .ok (t ++ " AS ".toList ++ nm)
    else if kw = "WITH".toList then
      .ok (nm ++ " AS (\n".toList ++ indentBlock t ++ "\n)".toList)
    else .error "KeyError"
  | _ => .error "KeyError"

/-- The inner loop of `BaseQuery._lines` over one keyword's fragment groups
(_sql_utils.py:73-87): each formatted group is indented, groups are joined
by the keyword separator, every group ends with a newline. -/
def thingsChunks (kw : List Char) : List (List (List Char)) →
    Except String (List (List Char))
  | [] => .ok []
  | [mt] => do
    let f ← fmtThing kw mt
    .ok [indentBlock f, ['\n']]
  | mt :: mt2 :: rest => do
    let f ← fmtThing kw mt
    let more ← thingsChunks kw (mt2 :: rest)
    .ok (indentBlock f :: getSeparator kw :: ['\n'] :: more)

/-- The outer loop of `BaseQuery._lines` (_sql_utils.py:64-87): pairs in
sorted order, keywords with no fragment groups skipped, each block starting
with the keyword on its own line. -/
def pairsChunks : BQ → Except String (List (List Char))
  | [] => .ok []
  | (kw, things) :: rest =>
    if things.isEmpty then pairsChunks rest
    else do
      let tc ← thingsChunks kw things
      let more ← pairsChunks rest
      .ok ((kw ++ ['\n']) :: tc ++ more)

/-- `BaseQuery.to_str(end)` (_sql_utils.py:58-59). -/
def toStr (q : BQ) (endS : List Char) : Except String (List Char) :=
  (pairsChunks (sortedPairs q)).map (fun cs => cs.flatten ++ endS)

/-- `str(query)` = `to_str(end=';' + '\n')`. -/
def qToStr (q : BQ) : Except String (List Char) :=
  toStr q (';' :: '\n' :: [])

/-- The keywords rendering emits, in emission order (derived from the loop
of `_lines`). -/
def renderedKeywords (q : BQ) : List (List Char) :=
  ((sortedPairs q).filter (fun p => !p.2.isEmpty)).map Prod.fst

/-! ## ScrollingWindowMixin (`_sql_utils.py:148-188`) -/

/-- A `Query` (ScrollingWindowMixin over BaseQuery): the clause dictionary
plus the mixin's recorded ordering keys, direction and target keyword. -/
structure SWQuery where
  q : BQ
  things : List (List Char)
  desc : Bool
  keyword : List Char

/-- `scrolling_window_order_by` (_sql_utils.py:153-161): record the cleaned
keys, direction and keyword, and add `'{thing} {order}'` fragments under
`ORDER BY`. -/
def swob (s : SWQuery) (ts : List (List Char)) (desc : Bool)
    (kw : List Char) : SWQuery :=
  { q := addQ s.q "ORDER BY".toList
      (ts.map (fun t =>
        [t ++ ' ' :: (if desc then "DESC".toList else "ASC".toList)])),
    things := ts.map cleanUp,
    desc := desc,
    keyword := kw }

/-- `Query()`: `ScrollingWindowMixin.__init__` calls
`scrolling_window_order_by()` with no keys (_sql_utils.py:149-151), which
creates an empty `ORDER BY` entry. -/
def newQuery : SWQuery :=
  swob ⟨[], [], false, "WHERE".toList⟩ [] false "WHERE".toList

/-- `__make_label = 'last_{}'.format` (_sql_utils.py:163). -/
def makeLabel (i : Nat) : List Char :=
  "last_".toList ++ (Nat.repr i).toList

/-- `ScrollingWindowMixin.LIMIT` (_sql_utils.py:165-177): always add the
`LIMIT` clause; when `last` is truthy also add, under the recorded keyword,
the rendered tuple-comparison built with a fresh inner `Query`. -/
def swLIMIT (s : SWQuery) (ts : List (List Char)) (last : Bool) :
    Except String SWQuery :=
  let s1 : SWQuery :=
    { s with q := (addQ s.q "LIMIT".toList (ts.map (fun t => [t]))) }
  if last = false then .ok s1
  else do
    let op := if s.desc then "<".toList else ">".toList
    let labels := (List.range s.things.length).map
      (fun i => ':' :: makeLabel i)
    let inner : BQ :=
      addQ (addQ newQuery.q "(".toList (s.things.map (fun t => [t])))
        (')' :: ' ' :: op ++ " (".toList) (labels.map (fun l => [l]))
    let istr ← toStr inner [')']
    .ok { s1 with q := addQ s1.q s.keyword [[istr]] }

/-- `ScrollingWindowMixin.last_params` (_sql_utils.py:183-184). -/
def lastParams {V : Type} (s : SWQuery) (last : Option (List V)) :
    List (List Char × V) :=
  (last.getD []).enum.map (fun p => (makeLabel p.1, p.2))

/-! ## Schema migration engine

`reader._sqlite_utils` itself is not part of the sources (only its tests
are), so the migration engine is modelled from the specification. -/

/-- A migration event: which caller-supplied function `migrate` invoked. -/
inductive MigEvent where
  | ranCreate : MigEvent
  | ranStep : Nat → MigEvent
deriving DecidableEq, Repr

/-- Errors out of `migrate`: a framework error (by name) or a
caller-supplied function's own error, propagated unmodified. -/
inductive MigErr (ε : Type) where
  | framework : String → MigErr ε
  | user : ε → MigErr ε
deriving DecidableEq, Repr

/-- The migration configuration: `creator`, target version, and the map
from source version to step function. -/
structure Migration (σ ε : Type) where
  create : Except ε σ
  version : Nat
  migrations : Nat → Option (σ → Except ε σ)

/-- A store: `none` schema means no existing tables; `version` is the
persisted schema version counter. -/
structure DBState (σ : Type) where
  schema : Option σ
  version : Nat
deriving DecidableEq, Repr

/-- Modelled from the spec: the step loop of `HeavyMigration.migrate`
(`reader._sqlite_utils`, not under the sources; spec §4.2 item 3): run each
step from `v` to `target - 1` in its own transaction, persisting the
incremented version after each successful step; a missing step is a
`SchemaVersionError`; a step's own error propagates unmodified and does not
advance the version.  Returns the persisted store, the invoked-function
log, and the error if one stopped the run. -/
def runSteps {σ ε : Type} (m : Migration σ ε) (s : σ) (v : Nat)
    (fuel : Nat) : DBState σ × List MigEvent × Option (MigErr ε) :=
  match fuel with
  | 0 => (⟨some s, v⟩, [], none)
  | fuel + 1 =>
    if v ≥ m.version then (⟨some s, v⟩, [], none)
    else
      match m.migrations v with
      | none => (⟨some s, v⟩, [], some (.framework "SchemaVersionError"))
      | some step =>
        match step s with
        | .error e => (⟨some s, v⟩, [.ranStep v], some (.user e))
        | .ok s2 =>
          let (db, evs, err) := runSteps m s2 (v + 1) fuel
          (db, .ranStep v :: evs, err)

/-- Modelled from the spec: `HeavyMigration.migrate`
(`reader._sqlite_utils`, not under the sources; spec §4.2): an empty store
runs `creator` and records the target version; otherwise the stored version
decides — above target is a `SchemaVersionError`, equal is a no-op, below
runs the contiguous step chain. -/
def migrate {σ ε : Type} (m : Migration σ ε) (db : DBState σ) :
    DBState σ × List MigEvent × Option (MigErr ε) :=
  match db.schema with
  | none =>
    match m.create with
    | .error e => (db, [.ranCreate], some (.user e))
    | .ok s => (⟨some s, m.version⟩, [.ranCreate], none)
  | some s =>
    if db.version > m.version then
      (db, [], some (.framework "SchemaVersionError"))
    else if db.version = m.version then
      (db, [], none)
    else
      runSteps m s db.version (m.version - db.version)

/-! ## Search indexing: chunked scans

`reader._search` is not part of the sources (only its tests are), so the
chunked indexing pass of `update_index()` is modelled from the
specification (§4.3): source rows are read in keyset-paginated chunks of a
caller-configurable size, 0 meaning a single unchunked scan. -/

/-- The rows strictly after the cursor (`WHERE key > :last`), all of them
when no cursor is given. -/
def cursorFilter {κ δ : Type} [LinearOrder κ] (rows : List (κ × δ)) :
    Option κ → List (κ × δ)
  | none => rows
  | some c => rows.filter (fun r => c < r.1)

/-- Modelled from the spec: one keyset-paginated page — the first `chunk`
rows whose sort key lies strictly after the cursor
(`WHERE key > :last ORDER BY key LIMIT chunk`). -/
def scanPage {κ δ : Type} [LinearOrder κ] (rows : List (κ × δ))
    (cursor : Option κ) (chunk : Nat) : List (κ × δ) :=
  (cursorFilter rows cursor).take chunk

/-- Modelled from the spec: the chunked pass — request pages until an empty
one, carrying the last row's key as the next cursor.  `fuel` bounds the
number of pages; `rows.length + 1` always suffices. -/
def scanAll {κ δ : Type} [LinearOrder κ] (rows : List (κ × δ))
    (chunk : Nat) (cursor : Option κ) (fuel : Nat) : List (κ × δ) :=
  match fuel with
  | 0 => []
  | fuel + 1 =>
    let page := scanPage rows cursor chunk
    match page.getLast? with
    | none => []
    | some lastRow => page ++ scanAll rows chunk (some lastRow.1) fuel

/-- Modelled from the spec: the rows `update_index()` reads, for a given
chunk size (0 = single unchunked scan). -/
def chunkedRows {κ δ : Type} [LinearOrder κ] (rows : List (κ × δ))
    (chunk : Nat) : List (κ × δ) :=
  if chunk = 0 then rows else scanAll rows chunk none (rows.length + 1)

/-- Modelled from the spec: `update_index()` recomputes the derived
document set from the rows of the chunked pass; `docOf` builds the weighted
search document of one row. -/
def updateIndex {κ δ ι : Type} [LinearOrder κ] (docOf : κ × δ → ι)
    (rows : List (κ × δ)) (chunk : Nat) : List ι :=
  (chunkedRows rows chunk).map docOf

/-! ## Specification-side helper predicates and formulas -/

/-- Valid highlight spans over a string of length `len`, sorted and
pairwise non-overlapping, all at positions `≥ lo`: each span satisfies
`lo ≤ start ≤ stop ≤ len` with `lo` advancing past every span. -/
def spansOK (len : Nat) : Nat → List (Nat × Nat) → Bool
  | _, [] => true
  | lo, p :: rest => lo ≤ p.1 && p.1 ≤ p.2 && p.2 ≤ len && spansOK len p.2 rest

/-- The text `apply` produces on a string whose spans start at or after
`lo`, with single-character markers. -/
def marked (b a : Char) (v : List Char) (lo : Nat) :
    List (Nat × Nat) → List Char
  | [] => v.drop lo
  | p :: rest =>
    pySub v lo p.1 ++ b :: pySub v p.1 p.2 ++ a :: marked b a v p.2 rest

/-- The parts `re.split` recovers from such a marked text. -/
def partsL (b a : Char) (v : List Char) (lo : Nat) :
    List (Nat × Nat) → List (List Char)
  | [] => [v.drop lo]
  | p :: rest =>
    pySub v lo p.1 :: [b] :: pySub v p.1 p.2 :: [a] ::
      partsL b a v p.2 rest

/-- The flattened fragment block a comma-separated keyword renders: each
fragment indented four spaces, a trailing comma on all but the last, one
fragment per line. -/
def fragLines : List (List Char) → List Char
  | [] => []
  | [t] => ' ' :: ' ' :: ' ' :: ' ' :: t ++ ['\n']
  | t :: t2 :: rest =>
    ' ' :: ' ' :: ' ' :: ' ' :: t ++ ',' :: '\n' :: fragLines (t2 :: rest)

/-- The tuple-comparison predicate `LIMIT(..., last=truthy)` builds:
`(k1, ..., kn) op (:last_0, ..., :last_(n-1))` laid out one component per
line. -/
def tupleCmpStr (ts : List (List Char)) (op : List Char)
    (labels : List (List Char)) : List Char :=
  '(' :: '\n' :: fragLines ts ++ ')' :: ' ' :: op ++ ' ' :: '(' :: '\n' ::
    fragLines labels ++ [')']

/-- The per-fragment conditions under which rendering is exactly computed:
non-empty, single-line, no leading whitespace. -/
def FragOK (t : List Char) : Prop :=
  t ≠ [] ∧ (∀ c ∈ t, c ≠ '\n') ∧ pyLstrip t = t

/-! ## Theorems -/

/-! ### Stable sort lemmas -/

theorem insertLe_perm {α : Type} (le : α → α → Bool) (x : α) (l : List α) :
    (insertLe le x l).Perm (x :: l) := by
  induction l with
  | nil => simp [insertLe]
  | cons y ys ih =>
    simp only [insertLe]
    cases h : le x y
    · simp only [Bool.false_eq_true, if_false]
      exact (ih.cons y).trans (List.Perm.swap x y ys)
    · simp

theorem pySorted_perm {α : Type} (le : α → α → Bool) (l : List α) :
    (pySorted le l).Perm l := by
  induction l with
  | nil => simp [pySorted]
  | cons x xs ih =>
    exact (insertLe_perm le x (pySorted le xs)).trans (ih.cons x)

theorem insertLe_pairwise {α : Type} (le : α → α → Bool)
    (htrans : ∀ a b c, le a b = true → le b c = true → le a c = true)
    (htot : ∀ a b, le a b = false → le b a = true) (x : α) (l : List α)
    (h : l.Pairwise (fun a b => le a b = true)) :
    (insertLe le x l).Pairwise (fun a b => le a b = true) := by
  induction l with
  | nil => simp [insertLe]
  | cons y ys ih =>
    rcases List.pairwise_cons.mp h with ⟨hy, hys⟩
    simp only [insertLe]
    cases hle : le x y
    · simp only [Bool.false_eq_true, if_false]
      refine List.pairwise_cons.mpr ⟨?_, ih hys⟩
      intro z hz
      rcases List.mem_cons.mp ((insertLe_perm le x ys).mem_iff.mp hz) with
        hzx | hzys
      · cases hzx
        exact htot x y hle
      · exact hy z hzys
    · simp only [if_true]
      refine List.pairwise_cons.mpr ⟨?_, h⟩
      intro z hz
      rcases List.mem_cons.mp hz with hzy | hzys
      · cases hzy
        exact hle
      · exact htrans x y z hle (hy z hzys)

theorem pySorted_pairwise {α : Type} (le : α → α → Bool)
    (htrans : ∀ a b c, le a b = true → le b c = true → le a c = true)
    (htot : ∀ a b, le a b = false → le b a = true) (l : List α) :
    (pySorted le l).Pairwise (fun a b => le a b = true) := by
  induction l with
  | nil => simp [pySorted]
  | cons x xs ih => exact insertLe_pairwise le htrans htot x _ ih

theorem filter_insertLe {α β : Type} [DecidableEq β] (le : α → α → Bool)
    (key : α → β) (hkk : ∀ a b, key a = key b → le a b = true) (k : β)
    (x : α) (l : List α) :
    (insertLe le x l).filter (fun a => decide (key a = k)) =
      (x :: l).filter (fun a => decide (key a = k)) := by
  induction l with
  | nil => rfl
  | cons y ys ih =>
    simp only [insertLe]
    cases hle : le x y
    · simp only [Bool.false_eq_true, if_false]
      have hxy : key x ≠ key y := by
        intro he
        rw [hkk x y he] at hle
        exact Bool.noConfusion hle
      by_cases hky : key y = k
      · have hkx : ¬ key x = k := fun hkx => hxy (hkx.trans hky.symm)
        simp [List.filter_cons, hky, hkx, ih]
      · simp [List.filter_cons, hky, ih]
    · simp

theorem filter_pySorted {α β : Type} [DecidableEq β] (le : α → α → Bool)
    (key : α → β) (hkk : ∀ a b, key a = key b → le a b = true) (k : β)
    (l : List α) :
    (pySorted le l).filter (fun a => decide (key a = k)) =
      l.filter (fun a => decide (key a = k)) := by
  induction l with
  | nil => rfl
  | cons x xs ih =>
    have := filter_insertLe le key hkk k x (pySorted le xs)
    simp only [pySorted, this, List.filter_cons, ih]

theorem pySorted_eq_self {α : Type} (le : α → α → Bool) (l : List α)
    (h : List.Chain' (fun a b => le a b = true) l) : pySorted le l = l := by
  induction l with
  | nil => rfl
  | cons x xs ih =>
    simp only [pySorted, ih h.tail]
    cases xs with
    | nil => rfl
    | cons y ys =>
      simp [insertLe, (List.chain'_cons.mp h).1]

theorem optLe_refl (x : Option Nat) : optLe x x = true := by
  cases x <;> simp [optLe]

theorem optLe_trans (a b c : Option Nat) (h1 : optLe a b = true)
    (h2 : optLe b c = true) : optLe a c = true := by
  cases a <;> cases b <;> cases c <;> simp_all [optLe] <;> omega

theorem optLe_total (a b : Option Nat) (h : optLe a b = false) :
    optLe b a = true := by
  cases a <;> cases b <;> simp_all [optLe] <;> omega

theorem findIdx?_none_of {α : Type} (p : α → Bool) (l : List α)
    (h : ∀ x ∈ l, p x = false) : l.findIdx? p = none := by
  apply List.findIdx?_eq_none_iff.mpr
  intro x hx
  exact h x hx

theorem leadsWith_cons_head (p : Char) (ps : List Char) (kw : List Char)
    (h : leadsWith (p :: ps) kw = true) : ∃ t, kw = p :: t := by
  cases kw with
  | nil => simp [leadsWith] at h
  | cons c t =>
    simp only [leadsWith, Bool.and_eq_true, decide_eq_true_eq] at h
    exact ⟨t, by rw [h.1]⟩

/-- C3: rendering iterates keywords in the stable sort order of the
precedence table — the sorted pair list is a permutation of the builder
state, sorted by keyword key (unknown keywords compare as infinity, hence
last), stable (each key class keeps insertion order); the table maps its
own entries to their positions, and the fuzzy rules send JOIN-containing
keywords to the JOIN slot, INSERT/REPLACE-prefixed ones to the INSERT
slot, UPDATE- and DELETE-prefixed ones to their slots, and everything else
to infinity. -/
theorem C3_keyword_precedence (q : BQ) :
    (sortedPairs q).Perm q ∧
    (sortedPairs q).Pairwise
      (fun p1 p2 => optLe (keywordKey p1.1) (keywordKey p2.1) = true) ∧
    (∀ k : Option Nat,
      (sortedPairs q).filter (fun p => decide (keywordKey p.1 = k)) =
        q.filter (fun p => decide (keywordKey p.1 = k))) ∧
    renderedKeywords q =
      ((sortedPairs q).filter (fun p => !p.2.isEmpty)).map Prod.fst ∧
    keywordOrder.map keywordKey =
      (List.range keywordOrder.length).map some ∧
    (∀ kw, pyIn "JOIN".toList kw = true → keywordKey kw = some 8) ∧
    (∀ kw, pyIn "JOIN".toList kw = false →
      leadsWith "INSERT".toList kw = true → keywordKey kw = some 1) ∧
    (∀ kw, pyIn "JOIN".toList kw = false →
      leadsWith "REPLACE".toList kw = true → keywordKey kw = some 1) ∧
    (∀ kw, pyIn "JOIN".toList kw = false →
      leadsWith "INSERT".toList kw = false →
      leadsWith "REPLACE".toList kw = false →
      leadsWith "UPDATE".toList kw = true → keywordKey kw = some 3) ∧
    (∀ kw, pyIn "JOIN".toList kw = false →
      leadsWith "INSERT".toList kw = false →
      leadsWith "REPLACE".toList kw = false →
      leadsWith "UPDATE".toList kw = false →
      leadsWith "DELETE".toList kw = true → keywordKey kw = some 5) ∧
    (∀ kw, pyIn "JOIN".toList kw = false →
      leadsWith "INSERT".toList kw = false →
      leadsWith "REPLACE".toList kw = false →
      leadsWith "UPDATE".toList kw = false →
      leadsWith "DELETE".toList kw = false →
      kw ∉ keywordOrder → keywordKey kw = none) := by
  refine ⟨pySorted_perm _ q,
    pySorted_pairwise
      (fun p1 p2 => optLe (keywordKey p1.1) (keywordKey p2.1))
      (fun a b c => optLe_trans _ _ _)
      (fun a b => optLe_total _ _) q,
    fun k => filter_pySorted
      (fun p1 p2 => optLe (keywordKey p1.1) (keywordKey p2.1))
      (fun p => keywordKey p.1)
      (fun a b he => by
        have h2 : keywordKey a.1 = keywordKey b.1 := he
        show optLe (keywordKey a.1) (keywordKey b.1) = true
        rw [h2]
        exact optLe_refl _) k q,
    rfl, by decide, ?_, ?_, ?_, ?_, ?_, ?_⟩
  · intro kw hJ
    simp only [keywordKey, fuzzyAdjust, hJ, if_true]
    decide
  · intro kw hJ hI
    simp only [keywordKey, fuzzyAdjust, hJ, hI, Bool.false_eq_true,
      if_false, if_true]
    decide
  · intro kw hJ hR
    obtain ⟨t, rfl⟩ := leadsWith_cons_head 'R' _ kw hR
    have hI : leadsWith "INSERT".toList ('R' :: t) = false := by
      simp [leadsWith]
    simp only [keywordKey, fuzzyAdjust, hJ, hI, hR, Bool.false_eq_true,
      if_false, if_true]
    decide
  · intro kw hJ hI hR hU
    simp only [keywordKey, fuzzyAdjust, hJ, hI, hR, hU,
      Bool.false_eq_true, if_false, if_true]
    decide
  · intro kw hJ hI hR hU hD
    simp only [keywordKey, fuzzyAdjust, hJ, hI, hR, hU, hD,
      Bool.false_eq_true, if_false, if_true]
    decide
  · intro kw hJ hI hR hU hD hmem
    simp only [keywordKey, fuzzyAdjust, hJ, hI, hR, hU, hD,
      Bool.false_eq_true, if_false]
    apply findIdx?_none_of
    intro x hx
    simp only [decide_eq_false_iff_not]
    intro he
    exact hmem (he ▸ hx)

/-! ### Split lemmas (C8) -/

theorem drop_take_append (w : List Char) (lo a : Nat) (h : lo ≤ a) :
    (w.take a).drop lo ++ w.drop a = w.drop lo := by
  by_cases hlo : lo ≤ (w.take a).length
  · conv_rhs => rw [← List.take_append_drop a w]
    rw [List.drop_append_of_le_length hlo]
  · push_neg at hlo
    rw [List.length_take] at hlo
    have hwl : w.length < lo := by omega
    rw [List.drop_eq_nil_of_le (le_of_lt (by simpa using hlo)),
      List.drop_eq_nil_of_le (by omega : w.length ≤ a),
      List.drop_eq_nil_of_le (le_of_lt hwl), List.append_nil]

theorem splitGo_length (v : List Char) (hs : List PySlice) (lo : Nat) :
    (splitGo v lo hs).length = 2 * hs.length + 1 := by
  induction hs generalizing lo with
  | nil => simp [splitGo]
  | cons h rest ih =>
    simp only [splitGo, List.length_cons, ih]
    omega

theorem splitGo_flatten (v : List Char) (spans : List (Nat × Nat)) :
    ∀ lo, spansOK v.length lo spans = true →
      (splitGo v lo (spans.map toSlice)).flatten = v.drop lo := by
  induction spans with
  | nil => intro lo _; simp [splitGo]
  | cons p rest ih =>
    intro lo h
    simp only [spansOK, Bool.and_eq_true, decide_eq_true_eq] at h
    obtain ⟨⟨⟨h1, h2⟩, _⟩, h4⟩ := h
    simp only [List.map_cons, splitGo, toSlice, Option.getD_some,
      Int.toNat_natCast, List.flatten_cons, ih p.2 h4]
    rw [pySub, pySub, drop_take_append v p.1 p.2 h2,
      drop_take_append v lo p.1 h1]

theorem splitGo_get_odd (v : List Char) (spans : List (Nat × Nat)) :
    ∀ lo i (hi : i < spans.length),
      (splitGo v lo (spans.map toSlice))[2 * i + 1]? =
        some (pySub v (spans.get ⟨i, hi⟩).1 (spans.get ⟨i, hi⟩).2) := by
  induction spans with
  | nil => intro lo i hi; cases hi
  | cons p rest ih =>
    intro lo i hi
    cases i with
    | zero => simp [splitGo, toSlice]
    | succ i =>
      have h2 : 2 * (i + 1) + 1 = (2 * i + 1) + 1 + 1 := by omega
      simp only [List.map_cons, splitGo, h2, List.getElem?_cons_succ]
      exact ih p.2 i (Nat.lt_of_succ_lt_succ hi)

theorem splitGo_get_even (v : List Char) (spans : List (Nat × Nat)) :
    ∀ lo j, j ≤ spans.length →
      (splitGo v lo (spans.map toSlice))[2 * j]? =
        (((lo :: spans.map Prod.snd).zip
          (spans.map Prod.fst ++ [v.length]))[j]?).map
          (fun pq => pySub v pq.1 pq.2) := by
  induction spans with
  | nil =>
    intro lo j hj
    have hj0 : j = 0 := Nat.le_zero.mp (by simpa using hj)
    subst hj0
    simp [splitGo, pySub]
  | cons p rest ih =>
    intro lo j hj
    cases j with
    | zero => simp [splitGo, toSlice]
    | succ j =>
      have h2 : 2 * (j + 1) = (2 * j) + 1 + 1 := by omega
      simp only [List.map_cons, splitGo, h2, List.getElem?_cons_succ,
        List.zip_cons_cons, List.cons_append]
      exact ih p.2 j (Nat.le_of_succ_le_succ hj)

/-- C8: on a validly constructed `HighlightedString` (sorted, in-range,
pairwise non-overlapping spans), `split()` yields `2 * len(highlights) + 1`
segments whose concatenation is the original value; segments at odd
positions are exactly the highlighted substrings, segments at even
positions the plain gaps between them (the first starting at 0 and the
last ending at the string's end, both possibly empty). -/
theorem C8_split_segments (v : List Char) (spans : List (Nat × Nat))
    (h : spansOK v.length 0 spans = true) :
    (HighlightedString.split ⟨v, spans.map toSlice⟩).length =
      2 * spans.length + 1 ∧
    (HighlightedString.split ⟨v, spans.map toSlice⟩).flatten = v ∧
    (∀ i (hi : i < spans.length),
      (HighlightedString.split ⟨v, spans.map toSlice⟩)[2 * i + 1]? =
        some (pySub v (spans.get ⟨i, hi⟩).1 (spans.get ⟨i, hi⟩).2)) ∧
    (∀ j, j ≤ spans.length →
      (HighlightedString.split ⟨v, spans.map toSlice⟩)[2 * j]? =
        (((0 :: spans.map Prod.snd).zip
          (spans.map Prod.fst ++ [v.length]))[j]?).map
          (fun pq => pySub v pq.1 pq.2)) := by
  refine ⟨?_, ?_, ?_, ?_⟩
  · simpa [HighlightedString.split] using
      splitGo_length v (spans.map toSlice) 0
  · simpa [HighlightedString.split] using splitGo_flatten v spans 0 h
  · exact fun i hi => splitGo_get_odd v spans 0 i hi
  · exact fun j hj => splitGo_get_even v spans 0 j hj

/-- Witness for C8 on `HighlightedString('abcd', [slice(1,3)])`. -/
theorem C8_split_segments_witness :
    spansOK "abcd".toList.length 0 [(1, 3)] = true ∧
    (HighlightedString.split ⟨"abcd".toList, [(1, 3)].map toSlice⟩).length =
      2 * [(1, 3)].length + 1 ∧
    (HighlightedString.split
      ⟨"abcd".toList, [(1, 3)].map toSlice⟩).flatten = "abcd".toList :=
  ⟨by decide,
   (C8_split_segments "abcd".toList [(1, 3)] (by decide)).1,
   (C8_split_segments "abcd".toList [(1, 3)] (by decide)).2.1⟩

/-! ### Chunked scan lemmas (C7) -/

theorem filter_gt_last {κ δ : Type} [LinearOrder κ] :
    ∀ (tl : List (κ × δ)) (chunk : Nat), 0 < chunk →
      tl.Pairwise (fun a b => a.1 < b.1) →
      ∀ lastRow, (tl.take chunk).getLast? = some lastRow →
        tl.filter (fun r => lastRow.1 < r.1) = tl.drop chunk := by
  intro tl
  induction tl with
  | nil => intro chunk h0 hs lastRow hl; simp at hl
  | cons x tl0 ih =>
    intro chunk h0 hs lastRow hl
    obtain ⟨c, rfl⟩ : ∃ c, chunk = c + 1 := ⟨chunk - 1, by omega⟩
    rcases List.pairwise_cons.mp hs with ⟨hx, hs0⟩
    rw [List.take_succ_cons] at hl
    rcases hcase : tl0.take c with _ | ⟨y, ys⟩
    · rw [hcase] at hl
      have hlx : lastRow = x := by simpa using hl.symm
      subst hlx
      have hft : tl0.filter (fun r => lastRow.1 < r.1) = tl0 :=
        List.filter_eq_self.mpr (fun a ha => by simpa using hx a ha)
      rcases List.take_eq_nil_iff.mp hcase with hc0 | htl0
      · subst hc0
        simp [List.filter_cons, hft]
      · subst htl0
        simp [List.filter_cons]
    · have hl2 : (tl0.take c).getLast? = some lastRow := by
        rw [hcase] at hl ⊢
        simpa using hl
      have hc0 : 0 < c := by
        by_contra hc
        have : c = 0 := by omega
        subst this
        simp at hcase
      have hmem : lastRow ∈ tl0 :=
        List.take_subset c tl0 (List.mem_of_getLast?_eq_some hl2)
      have hih := ih c hc0 hs0 lastRow hl2
      have hxlt : x.1 < lastRow.1 := hx lastRow hmem
      have hxf : ¬ lastRow.1 < x.1 := by
        intro hcon
        exact absurd (lt_trans hxlt hcon) (lt_irrefl _)
      simp only [List.filter_cons, List.drop_succ_cons]
      rw [if_neg (by simpa using hxf)]
      exact hih

theorem scanAll_eq {κ δ : Type} [LinearOrder κ] (rows : List (κ × δ))
    (hsort : rows.Pairwise (fun a b => a.1 < b.1)) (chunk : Nat)
    (h0 : 0 < chunk) :
    ∀ fuel (pre tl : List (κ × δ)), rows = pre ++ tl →
      tl.length < fuel → ∀ cursor, cursorFilter rows cursor = tl →
        scanAll rows chunk cursor fuel = tl := by
  intro fuel
  induction fuel with
  | zero => intro pre tl hsplit hlen; omega
  | succ fuel ih =>
    intro pre tl hsplit hlen cursor hcur
    have hpage : scanPage rows cursor chunk = tl.take chunk := by
      rw [scanPage, hcur]
    cases tl with
    | nil =>
      simp only [scanAll, hpage]
      simp
    | cons x tl0 =>
      obtain ⟨c, rfl⟩ : ∃ c, chunk = c + 1 := ⟨chunk - 1, by omega⟩
      rcases hgl : ((x :: tl0).take (c + 1)).getLast? with _ | lastRow
      · rw [List.take_succ_cons] at hgl
        simp [List.getLast?_eq_none_iff] at hgl
      · have htl_sorted : (x :: tl0).Pairwise (fun a b => a.1 < b.1) := by
          rw [hsplit] at hsort
          exact (List.pairwise_append.mp hsort).2.1
      -- the next cursor filters to exactly the rows after this page
        have hmem : lastRow ∈ x :: tl0 :=
          List.take_subset (c + 1) _ (List.mem_of_getLast?_eq_some hgl)
        have hnext : cursorFilter rows (some lastRow.1) =
            (x :: tl0).drop (c + 1) := by
          show rows.filter (fun r => lastRow.1 < r.1) = _
          rw [hsplit, List.filter_append]
          have hprenil : pre.filter (fun r => lastRow.1 < r.1) = [] := by
            rw [List.filter_eq_nil_iff]
            intro p hp
            have hlt : p.1 < lastRow.1 := by
              rw [hsplit] at hsort
              exact (List.pairwise_append.mp hsort).2.2 p hp lastRow hmem
            simp only [decide_eq_true_eq]
            intro hcon
            exact absurd (lt_trans hlt hcon) (lt_irrefl _)
          rw [hprenil, filter_gt_last (x :: tl0) (c + 1) (by omega)
            htl_sorted lastRow hgl]
          rfl
        have hsplit2 : rows = (pre ++ (x :: tl0).take (c + 1)) ++
            (x :: tl0).drop (c + 1) := by
          rw [List.append_assoc, List.take_append_drop]
          exact hsplit
        have hlen2 : ((x :: tl0).drop (c + 1)).length < fuel := by
          rw [List.length_drop]
          simp only [List.length_cons] at hlen ⊢
          omega
        have hrec := ih (pre ++ (x :: tl0).take (c + 1))
          ((x :: tl0).drop (c + 1)) hsplit2 hlen2 (some lastRow.1) hnext
        simp only [scanAll, hpage, hgl, hrec]
        exact List.take_append_drop (c + 1) (x :: tl0)

/-- C7: with rows strictly sorted by the pagination key, the chunked
keyset-paginated pass reads exactly the full row list for every chunk
size, so `update_index()` builds the same index and any search over it
returns identical results regardless of chunk size. -/
theorem C7_chunk_size_irrelevant {κ δ ι ρ : Type} [LinearOrder κ]
    (rows : List (κ × δ)) (hsort : rows.Pairwise (fun a b => a.1 < b.1))
    (docOf : κ × δ → ι) (srch : List ι → ρ) (c1 c2 : Nat) :
    chunkedRows rows c1 = rows ∧
    updateIndex docOf rows c1 = updateIndex docOf rows c2 ∧
    srch (updateIndex docOf rows c1) = srch (updateIndex docOf rows c2) := by
  have hall : ∀ c, chunkedRows rows c = rows := by
    intro c
    unfold chunkedRows
    split
    · rfl
    · rename_i hc
      exact scanAll_eq rows hsort c (by omega) (rows.length + 1) [] rows
        rfl (by omega) none rfl
  refine ⟨hall c1, ?_, ?_⟩ <;> simp [updateIndex, hall]

/-- Witness for C7: three sorted rows, chunk sizes 2 and 0. -/
theorem C7_chunk_size_irrelevant_witness :
    ([((1 : Nat), "a"), (2, "b"), (3, "c")] :
      List (Nat × String)).Pairwise (fun a b => a.1 < b.1) ∧
    chunkedRows [((1 : Nat), "a"), (2, "b"), (3, "c")] 2 =
      [(1, "a"), (2, "b"), (3, "c")] ∧
    updateIndex id [((1 : Nat), "a"), (2, "b"), (3, "c")] 2 =
      updateIndex id [((1 : Nat), "a"), (2, "b"), (3, "c")] 0 :=
  ⟨by decide,
   (C7_chunk_size_irrelevant [((1 : Nat), "a"), (2, "b"), (3, "c")]
     (by decide) id (fun l => l) 2 0).1,
   (C7_chunk_size_irrelevant [((1 : Nat), "a"), (2, "b"), (3, "c")]
     (by decide) id (fun l => l) 2 0).2.1⟩

/-! ### String cleaning lemmas (C4) -/

theorem dropWhile_length_eq {p : Char → Bool} :
    ∀ l : List Char, (l.dropWhile p).length = l.length →
      l.dropWhile p = l := by
  intro l h
  cases l with
  | nil => rfl
  | cons c t =>
    by_cases hc : p c = true
    · rw [List.dropWhile_cons, if_pos hc] at h
      have := (List.dropWhile_sublist (l := t) p).length_le
      simp at h
      omega
    · rw [List.dropWhile_cons, if_neg hc]

theorem rstrip_of_strip (t : List Char) (h : pyStrip t = t) :
    pyRstrip t = t := by
  have hlen1 : (pyRstrip t).length ≤ t.length := by
    simp only [pyRstrip, List.length_reverse]
    have := (List.dropWhile_sublist (l := t.reverse) pyIsSpace).length_le
    simpa using this
  have hlen2 : (pyStrip t).length ≤ (pyRstrip t).length := by
    simp only [pyStrip, pyLstrip]
    exact (List.dropWhile_sublist (l := pyRstrip t) pyIsSpace).length_le
  rw [h] at hlen2
  have hlen : (pyRstrip t).length = t.length := by omega
  simp only [pyRstrip, List.length_reverse] at hlen ⊢
  rw [dropWhile_length_eq t.reverse (by simpa using hlen),
    List.reverse_reverse]

theorem lstrip_of_strip (t : List Char) (h : pyStrip t = t) :
    pyLstrip t = t := by
  have h2 := h
  rw [pyStrip, rstrip_of_strip t h] at h2
  exact h2

theorem head_not_space_of_lstrip (c : Char) (r : List Char)
    (h : pyLstrip (c :: r) = c :: r) : pyIsSpace c = false := by
  rw [pyLstrip, List.dropWhile_cons] at h
  by_cases hc : pyIsSpace c = true
  · rw [if_pos hc] at h
    have := (List.dropWhile_sublist (l := r) pyIsSpace).length_le
    have hlen := congrArg List.length h
    simp at hlen
    omega
  · simpa using hc

theorem splitNL_no_nl (t : List Char) (h : ∀ c ∈ t, c ≠ '\n') :
    splitNL t = [t] := by
  induction t with
  | nil => rfl
  | cons c r ih =>
    rw [splitNL]
    rw [if_neg (by simpa using h c (List.mem_cons_self c r))]
    rw [ih (fun x hx => h x (List.mem_cons_of_mem c hx))]

theorem splitNL_ne_nil (t : List Char) : splitNL t ≠ [] := by
  cases t with
  | nil => simp [splitNL]
  | cons c r =>
    rw [splitNL]
    split
    · simp
    · rcases h : splitNL r with _ | ⟨l, ls⟩ <;> simp [h]

theorem joinNL_splitNL (t : List Char) : joinNL (splitNL t) = t := by
  induction t with
  | nil => rfl
  | cons c r ih =>
    rw [splitNL]
    split
    · rename_i hc
      subst hc
      rcases h : splitNL r with _ | ⟨l, ls⟩
      · exact absurd h (splitNL_ne_nil r)
      · rw [h] at ih
        simp only [joinNL, List.nil_append]
        cases ls <;> simpa [joinNL] using ih
    · rcases h : splitNL r with _ | ⟨l, ls⟩
      · exact absurd h (splitNL_ne_nil r)
      · rw [h] at ih
        cases ls <;> simpa [joinNL] using ih

theorem splitNL_append (x t : List Char) (hx : ∀ c ∈ x, c ≠ '\n') :
    splitNL (x ++ '\n' :: t) = x :: splitNL t := by
  induction x with
  | nil => simp [splitNL]
  | cons c r ih =>
    rw [List.cons_append, splitNL]
    rw [if_neg (by simpa using hx c (List.mem_cons_self c r))]
    rw [ih (fun y hy => hx y (List.mem_cons_of_mem c hy))]

theorem wsOnly_false_of_mem (l : List Char) (c : Char) (hc : c ∈ l)
    (h : isTabSpace c = false) : wsOnly l = false := by
  simp only [wsOnly, Bool.and_eq_false_iff]
  right
  rw [List.all_eq_false]
  exact ⟨c, hc, by simpa [isTabSpace] using h⟩

theorem foldl_commonPfx_nil (xs : List (List Char)) :
    xs.foldl commonPfx [] = [] := by
  induction xs with
  | nil => rfl
  | cons y ys ih => simpa [commonPfx] using ih

theorem marginOf_cons_nil (is : List (List Char)) :
    marginOf ([] :: is) = [] := by
  simp [marginOf, foldl_commonPfx_nil]

theorem map_wsOnly_id (L : List (List Char))
    (hL : ∀ l ∈ L, wsOnly l = false) :
    L.map (fun l => if wsOnly l then [] else l) = L := by
  induction L with
  | nil => rfl
  | cons a as ih =>
    rw [List.map_cons, hL a (List.mem_cons_self a as)]
    simp only [Bool.false_eq_true, if_false]
    rw [ih (fun x hx => hL x (List.mem_cons_of_mem a hx))]

theorem pyDedent_fixed (c : Char) (rest : List Char)
    (hc : isTabSpace c = false) (hcnl : c ≠ '\n')
    (hws : ∀ l ∈ splitNL (c :: rest), wsOnly l = false) :
    pyDedent (c :: rest) = c :: rest := by
  obtain ⟨l0, ls, hsplit⟩ :
      ∃ l0 ls, splitNL (c :: rest) = (c :: l0) :: ls := by
    rw [splitNL, if_neg (by simpa using hcnl)]
    rcases h : splitNL rest with _ | ⟨l, ls⟩
    · exact absurd h (splitNL_ne_nil rest)
    · exact ⟨l, ls, rfl⟩
  have hmap := map_wsOnly_id (splitNL (c :: rest)) hws
  rw [hsplit] at hmap
  have hcts : ¬ (isTabSpace c = true) := by simp [hc]
  simp only [pyDedent, hsplit, hmap]
  rw [List.filter_cons]
  simp only [List.isEmpty_cons, Bool.not_false, if_true]
  rw [List.map_cons, List.takeWhile_cons, if_neg hcts, marginOf_cons_nil]
  simp only [List.isEmpty_nil, if_true]
  rw [← hsplit, joinNL_splitNL]

theorem cleanUp_fixed (t : List Char) (h1 : t ≠ [])
    (h2 : ∀ c ∈ t, c ≠ '\n') (h3 : pyStrip t = t) : cleanUp t = t := by
  obtain ⟨c, r, rfl⟩ : ∃ c r, t = c :: r := by
    cases t with
    | nil => exact absurd rfl h1
    | cons c r => exact ⟨c, r, rfl⟩
  have hr := rstrip_of_strip _ h3
  have hl := lstrip_of_strip _ h3
  have hhead := head_not_space_of_lstrip c r hl
  have hhead2 : ¬c = ' ' ∧ ¬c = '\t' := by
    simp only [pyIsSpace, Bool.or_eq_false_iff, decide_eq_false_iff_not]
      at hhead
    exact ⟨hhead.1.1.1.1.1, hhead.1.1.1.1.2⟩
  have hts : isTabSpace c = false := by
    simp only [isTabSpace, Bool.or_eq_false_iff, decide_eq_false_iff_not]
    exact hhead2
  have hws : ∀ l ∈ splitNL (c :: r), wsOnly l = false := by
    rw [splitNL_no_nl (c :: r) h2]
    intro l hlmem
    rcases List.mem_singleton.mp hlmem with rfl
    exact wsOnly_false_of_mem _ c (List.mem_cons_self c r) hts
  have hded := pyDedent_fixed c r hts (h2 c (List.mem_cons_self c r)) hws
  rw [cleanUp, hr, hded, h3]

theorem digitChar_ok (n : Nat) :
    pyIsSpace (Nat.digitChar n) = false ∧ Nat.digitChar n ≠ '\n' := by
  rcases n with _|_|_|_|_|_|_|_|_|_|_|_|_|_|_|_|m
  all_goals try exact ⟨by decide, by decide⟩
  unfold Nat.digitChar
  repeat rw [if_neg (by omega)]
  exact ⟨by decide, by decide⟩

theorem toDigitsCore_ok (b : Nat) :
    ∀ fuel n ds,
      (∀ c ∈ ds, pyIsSpace c = false ∧ c ≠ '\n') →
      ∀ c ∈ Nat.toDigitsCore b fuel n ds,
        pyIsSpace c = false ∧ c ≠ '\n' := by
  intro fuel
  induction fuel with
  | zero => intro n ds hds; exact hds
  | succ fuel ih =>
    intro n ds hds c hc
    rw [Nat.toDigitsCore] at hc
    have hcons : ∀ x ∈ Nat.digitChar (n % b) :: ds,
        pyIsSpace x = false ∧ x ≠ '\n' := by
      intro x hx
      rcases List.mem_cons.mp hx with rfl | hx2
      · exact digitChar_ok (n % b)
      · exact hds x hx2
    split at hc
    · exact hcons c hc
    · exact ih (n / b) _ hcons c hc

theorem repr_chars_ok (i : Nat) :
    ∀ c ∈ (Nat.repr i).toList, pyIsSpace c = false ∧ c ≠ '\n' := by
  intro c hc
  have : (Nat.repr i).toList = Nat.toDigits 10 i := rfl
  rw [this, Nat.toDigits] at hc
  exact toDigitsCore_ok 10 (i + 1) i [] (by intro x hx; cases hx) c hc

theorem dropWhile_eq_self_of (p : Char → Bool) (l : List Char)
    (h : ∀ c ∈ l, p c = false) : l.dropWhile p = l := by
  cases l with
  | nil => rfl
  | cons c r =>
    rw [List.dropWhile_cons,
      if_neg (by simp [h c (List.mem_cons_self c r)])]

theorem strip_of_no_space (l : List Char)
    (h : ∀ c ∈ l, pyIsSpace c = false) : pyStrip l = l := by
  have hrs : pyRstrip l = l := by
    rw [pyRstrip, dropWhile_eq_self_of pyIsSpace l.reverse
      (fun c hc => h c (List.mem_reverse.mp hc)), List.reverse_reverse]
  rw [pyStrip, hrs, pyLstrip, dropWhile_eq_self_of pyIsSpace l h]

theorem label_ok (i : Nat) :
    (':' :: makeLabel i ≠ [] ∧
      (∀ c ∈ ':' :: makeLabel i, c ≠ '\n') ∧
      pyStrip (':' :: makeLabel i) = ':' :: makeLabel i) ∧
    pyLstrip (':' :: makeLabel i) = ':' :: makeLabel i := by
  have hchars : ∀ c ∈ ':' :: makeLabel i,
      pyIsSpace c = false ∧ c ≠ '\n' := by
    intro c hc
    rcases List.mem_cons.mp hc with rfl | hc2
    · exact ⟨by decide, by decide⟩
    · rw [makeLabel] at hc2
      rcases List.mem_append.mp hc2 with hc3 | hc3
      · fin_cases hc3 <;> exact ⟨by decide, by decide⟩
      · exact repr_chars_ok i c hc3
  have hstrip : pyStrip (':' :: makeLabel i) = ':' :: makeLabel i :=
    strip_of_no_space _ (fun c hc => (hchars c hc).1)
  exact ⟨⟨by simp, fun c hc => (hchars c hc).2, hstrip⟩,
    lstrip_of_strip _ hstrip⟩

theorem isTabSpace_false_of (c : Char) (h : pyIsSpace c = false) :
    isTabSpace c = false := by
  simp only [pyIsSpace, Bool.or_eq_false_iff, decide_eq_false_iff_not] at h
  simp only [isTabSpace, Bool.or_eq_false_iff, decide_eq_false_iff_not]
  exact ⟨h.1.1.1.1.1, h.1.1.1.1.2⟩

theorem hasNonWs_of (t : List Char) (h1 : t ≠ []) (hl : pyLstrip t = t) :
    hasNonWs t = true := by
  obtain ⟨c, r, rfl⟩ : ∃ c r, t = c :: r := by
    cases t with
    | nil => exact absurd rfl h1
    | cons c r => exact ⟨c, r, rfl⟩
  have hc := head_not_space_of_lstrip c r hl
  simp only [hasNonWs, List.any_eq_true]
  exact ⟨c, List.mem_cons_self c r, by simp [hc]⟩

theorem indentBlock_single (t : List Char) (h2 : ∀ c ∈ t, c ≠ '\n')
    (hnw : hasNonWs t = true) :
    indentBlock t = ' ' :: ' ' :: ' ' :: ' ' :: t := by
  rw [indentBlock, splitNL_no_nl t h2]
  simp [hnw, joinNL]

theorem thingsChunks_comma (kw : List Char)
    (hsep : getSeparator kw = [',']) :
    ∀ ts : List (List Char), ts ≠ [] → (∀ t ∈ ts, FragOK t) →
      ∃ cs, thingsChunks kw (ts.map (fun t => [t])) = .ok cs ∧
        cs.flatten = fragLines ts := by
  intro ts
  induction ts with
  | nil => intro h; exact absurd rfl h
  | cons t rest ih =>
    intro _ hts
    obtain ⟨ht1, ht2, ht3⟩ := hts t (List.mem_cons_self t rest)
    have hind := indentBlock_single t ht2 (hasNonWs_of t ht1 ht3)
    cases rest with
    | nil =>
      refine ⟨[indentBlock t, ['\n']], rfl, ?_⟩
      simp [hind, fragLines]
    | cons t2 rest2 =>
      obtain ⟨cs', hcs', hflat⟩ := ih (by simp)
        (fun x hx => hts x (List.mem_cons_of_mem t hx))
      refine ⟨indentBlock t :: getSeparator kw :: ['\n'] :: cs', ?_, ?_⟩
      · simp only [List.map_cons, thingsChunks]
        rw [show fmtThing kw [t] = .ok t from rfl]
        simp only [List.map_cons] at hcs'
        rw [hcs']
        rfl
      · simp only [List.flatten_cons, hflat, hind, hsep, fragLines]
        simp

theorem fragLines_indent_no_nl (t : List Char)
    (h2 : ∀ c ∈ t, c ≠ '\n') :
    ∀ c ∈ ' ' :: ' ' :: ' ' :: ' ' :: t, c ≠ '\n' := by
  intro c hc
  rcases List.mem_cons.mp hc with rfl | hc
  · decide
  rcases List.mem_cons.mp hc with rfl | hc
  · decide
  rcases List.mem_cons.mp hc with rfl | hc
  · decide
  rcases List.mem_cons.mp hc with rfl | hc
  · decide
  exact h2 c hc

theorem fragLines_wsOnly (R : List Char)
    (hR : ∀ l ∈ splitNL R, wsOnly l = false) :
    ∀ ts : List (List Char), (∀ t ∈ ts, FragOK t) →
      ∀ l ∈ splitNL (fragLines ts ++ R), wsOnly l = false := by
  intro ts
  induction ts with
  | nil => intro _; simpa [fragLines] using hR
  | cons t rest ih =>
    intro hts l hl
    obtain ⟨ht1, ht2, ht3⟩ := hts t (List.mem_cons_self t rest)
    obtain ⟨c, r, rfl⟩ : ∃ c r, t = c :: r := by
      cases t with
      | nil => exact absurd rfl ht1
      | cons c r => exact ⟨c, r, rfl⟩
    have hcts : isTabSpace c = false :=
      isTabSpace_false_of c (head_not_space_of_lstrip c r ht3)
    cases rest with
    | nil =>
      rw [show fragLines [c :: r] ++ R =
        (' ' :: ' ' :: ' ' :: ' ' :: (c :: r)) ++ '\n' :: R by
          simp [fragLines]] at hl
      rw [splitNL_append _ _ (fragLines_indent_no_nl _ ht2)] at hl
      rcases List.mem_cons.mp hl with rfl | hl2
      · exact wsOnly_false_of_mem _ c (by simp) hcts
      · exact hR l hl2
    | cons t2 rest2 =>
      rw [show fragLines ((c :: r) :: t2 :: rest2) ++ R =
        (' ' :: ' ' :: ' ' :: ' ' :: ((c :: r) ++ [','])) ++
          '\n' :: (fragLines (t2 :: rest2) ++ R) by
          simp [fragLines]] at hl
      have hnl : ∀ x ∈ ' ' :: ' ' :: ' ' :: ' ' :: ((c :: r) ++ [',']),
          x ≠ '\n' := by
        apply fragLines_indent_no_nl
        intro x hx
        rcases List.mem_append.mp hx with hx2 | hx2
        · exact ht2 x hx2
        · rcases List.mem_singleton.mp hx2 with rfl
          decide
      rw [splitNL_append _ _ hnl] at hl
      rcases List.mem_cons.mp hl with rfl | hl2
      · exact wsOnly_false_of_mem _ c (by simp) hcts
      · exact ih (fun x hx => hts x (List.mem_cons_of_mem _ hx)) l hl2

theorem rstrip_append_last (xs : List Char) (c : Char)
    (hc : pyIsSpace c = false) : pyRstrip (xs ++ [c]) = xs ++ [c] := by
  rw [pyRstrip, List.reverse_append, List.reverse_singleton,
    List.singleton_append, List.dropWhile_cons, if_neg (by simp [hc])]
  simp

theorem lstrip_head (c : Char) (r : List Char) (hc : pyIsSpace c = false) :
    pyLstrip (c :: r) = c :: r := by
  rw [pyLstrip, List.dropWhile_cons, if_neg (by simp [hc])]

theorem cleanUp_tupleCmp (ts labels : List (List Char)) (op : List Char)
    (hts : ∀ t ∈ ts, FragOK t) (hlabels : ∀ t ∈ labels, FragOK t)
    (hop : op = "<".toList ∨ op = ">".toList) :
    cleanUp (tupleCmpStr ts op labels) = tupleCmpStr ts op labels := by
  have hopc : ∀ c ∈ op, c ≠ '\n' := by
    rcases hop with rfl | rfl <;> intro c hc <;>
      simp only [String.toList] at hc <;> fin_cases hc <;> decide
  have hrs : pyRstrip (tupleCmpStr ts op labels) =
      tupleCmpStr ts op labels := by
    rw [show tupleCmpStr ts op labels =
      ('(' :: '\n' :: fragLines ts ++ ')' :: ' ' :: op ++ ' ' :: '(' ::
        '\n' :: fragLines labels) ++ [')'] by
        simp [tupleCmpStr]]
    exact rstrip_append_last _ ')' (by decide)
  have hR3 : ∀ l ∈ splitNL (fragLines labels ++ [')']),
      wsOnly l = false := by
    apply fragLines_wsOnly
    · intro l hl
      rw [splitNL_no_nl [')'] (by intro c hc; fin_cases hc; decide)] at hl
      rcases List.mem_singleton.mp hl with rfl
      exact wsOnly_false_of_mem _ ')' (by simp) (by decide)
    · exact hlabels
  have hR2 : ∀ l ∈ splitNL ((')' :: ' ' :: op ++ [' ', '(']) ++
      '\n' :: (fragLines labels ++ [')'])), wsOnly l = false := by
    intro l hl
    rw [splitNL_append _ _ ?hnl] at hl
    case hnl =>
      intro c hc
      rcases List.mem_cons.mp hc with rfl | hc
      · decide
      rcases List.mem_cons.mp hc with rfl | hc
      · decide
      rcases List.mem_append.mp hc with hc2 | hc2
      · exact hopc c hc2
      · fin_cases hc2 <;> decide
    rcases List.mem_cons.mp hl with rfl | hl2
    · exact wsOnly_false_of_mem _ ')' (by simp) (by decide)
    · exact hR3 l hl2
  have hR1 : ∀ l ∈ splitNL (fragLines ts ++
      ((')' :: ' ' :: op ++ [' ', '(']) ++
        '\n' :: (fragLines labels ++ [')']))), wsOnly l = false :=
    fragLines_wsOnly _ hR2 ts hts
  have hws : ∀ l ∈ splitNL (tupleCmpStr ts op labels),
      wsOnly l = false := by
    intro l hl
    rw [show tupleCmpStr ts op labels =
      ['('] ++ '\n' :: (fragLines ts ++
        ((')' :: ' ' :: op ++ [' ', '(']) ++
          '\n' :: (fragLines labels ++ [')']))) by
        simp [tupleCmpStr]] at hl
    rw [splitNL_append _ _ (by intro c hc; fin_cases hc; decide)] at hl
    rcases List.mem_cons.mp hl with rfl | hl2
    · exact wsOnly_false_of_mem _ '(' (by simp) (by decide)
    · exact hR1 l hl2
  have hded : pyDedent (tupleCmpStr ts op labels) =
      tupleCmpStr ts op labels := by
    rw [show tupleCmpStr ts op labels =
      '(' :: ('\n' :: fragLines ts ++ ')' :: ' ' :: op ++ ' ' :: '(' ::
        '\n' :: fragLines labels ++ [')']) from rfl] at hws ⊢
    exact pyDedent_fixed '(' _ (by decide) (by decide) hws
  rw [cleanUp, hrs, hded, pyStrip, hrs,
    show tupleCmpStr ts op labels =
      '(' :: ('\n' :: fragLines ts ++ ')' :: ' ' :: op ++ ' ' :: '(' ::
        '\n' :: fragLines labels ++ [')']) from rfl,
    lstrip_head '(' _ (by decide)]

theorem except_bind_ok {ε α β : Type} (a : α) (f : α → Except ε β) :
    (Except.ok a : Except ε α) >>= f = f a := rfl

theorem except_map_ok {ε α β : Type} (a : α) (f : α → β) :
    Except.map f (Except.ok a : Except ε α) = Except.ok (f a) := rfl

theorem map_singleton_cleanUp (ts : List (List Char))
    (h : ∀ t ∈ ts, cleanUp t = t) :
    (ts.map (fun t => [t])).map (fun th => th.map cleanUp) =
      ts.map (fun t => [t]) := by
  induction ts with
  | nil => rfl
  | cons t rest ih =>
    simp only [List.map_cons, List.map_nil]
    rw [h t (List.mem_cons_self t rest),
      ih (fun x hx => h x (List.mem_cons_of_mem t hx))]

theorem innerQuery_toStr (ts : List (List Char)) (op : List Char)
    (hne : ts ≠ [])
    (hts : ∀ t ∈ ts, t ≠ [] ∧ (∀ c ∈ t, c ≠ '\n') ∧ pyStrip t = t)
    (hop : op = "<".toList ∨ op = ">".toList) :
    toStr (addQ (addQ newQuery.q "(".toList (ts.map (fun t => [t])))
        (')' :: ' ' :: op ++ " (".toList)
        (((List.range ts.length).map (fun i => ':' :: makeLabel i)).map
          (fun l => [l]))) [')'] =
      .ok (tupleCmpStr ts op
        ((List.range ts.length).map (fun i => ':' :: makeLabel i))) := by
  have htsF : ∀ t ∈ ts, FragOK t := by
    intro t ht
    obtain ⟨h1, h2, h3⟩ := hts t ht
    exact ⟨h1, h2, lstrip_of_strip t h3⟩
  have htsC : ∀ t ∈ ts, cleanUp t = t := by
    intro t ht
    obtain ⟨h1, h2, h3⟩ := hts t ht
    exact cleanUp_fixed t h1 h2 h3
  have hlabF : ∀ l ∈ (List.range ts.length).map
      (fun i => ':' :: makeLabel i), FragOK l := by
    intro l hl
    obtain ⟨i, _, rfl⟩ := List.mem_map.mp hl
    obtain ⟨⟨h1, h2, _⟩, h4⟩ := label_ok i
    exact ⟨h1, h2, h4⟩
  have hlabC : ∀ l ∈ (List.range ts.length).map
      (fun i => ':' :: makeLabel i), cleanUp l = l := by
    intro l hl
    obtain ⟨i, _, rfl⟩ := List.mem_map.mp hl
    obtain ⟨⟨h1, h2, h3⟩, _⟩ := label_ok i
    exact cleanUp_fixed _ h1 h2 h3
  have hlabne : (List.range ts.length).map
      (fun i => ':' :: makeLabel i) ≠ [] := by
    cases ts with
    | nil => exact absurd rfl hne
    | cons a b => simp [List.range_succ_eq_map]
  have hsepOp : getSeparator (')' :: ' ' :: op ++ " (".toList) = [','] := by
    rcases hop with rfl | rfl <;> decide
  have hkkOp : keywordKey (')' :: ' ' :: op ++ " (".toList) = none := by
    rcases hop with rfl | rfl <;> decide
  obtain ⟨cs1, hcs1, hflat1⟩ := thingsChunks_comma "(".toList (by decide)
    ts hne htsF
  obtain ⟨cs2, hcs2, hflat2⟩ := thingsChunks_comma
    (')' :: ' ' :: op ++ " (".toList) hsepOp
    ((List.range ts.length).map (fun i => ':' :: makeLabel i))
    hlabne hlabF
  have hinner : addQ (addQ newQuery.q "(".toList
      (ts.map (fun t => [t])))
      (')' :: ' ' :: op ++ " (".toList)
      (((List.range ts.length).map (fun i => ':' :: makeLabel i)).map
        (fun l => [l])) =
      [("ORDER BY".toList, []),
       ("(".toList, ts.map (fun t => [t])),
       (')' :: ' ' :: op ++ " (".toList,
        ((List.range ts.length).map
          (fun i => ':' :: makeLabel i)).map (fun l => [l]))] := by
    show qSet _ _ _ = _
    rw [show qGet (addQ newQuery.q "(".toList (ts.map (fun t => [t])))
      (')' :: ' ' :: op ++ " (".toList) = none from rfl]
    show qSet [("ORDER BY".toList, []),
      ("(".toList, ([] ++ (ts.map (fun t => [t])).map
        (fun th => th.map cleanUp)))] _ _ = _
    rw [List.nil_append, map_singleton_cleanUp ts htsC,
      map_singleton_cleanUp _ hlabC]
    rfl
  have hTne : (ts.map (fun t => [t])).isEmpty = false := by
    cases ts with
    | nil => exact absurd rfl hne
    | cons a b => rfl
  have hLne : (((List.range ts.length).map
      (fun i => ':' :: makeLabel i)).map (fun l => [l])).isEmpty =
      false := by
    rcases hlab : (List.range ts.length).map (fun i => ':' :: makeLabel i)
      with _ | ⟨a, b⟩
    · exact absurd hlab hlabne
    · rfl
  rw [toStr, hinner, sortedPairs]
  rw [pySorted_eq_self _ _ (by
    simp only [List.chain'_cons, List.chain'_singleton, and_true]
    refine ⟨by decide, ?_⟩
    rw [hkkOp, show keywordKey "(".toList = none from by decide]
    decide)]
  simp only [pairsChunks, List.isEmpty_nil, if_true, hTne, hLne,
    Bool.false_eq_true, if_false]
  rw [hcs1, hcs2]
  simp only [except_bind_ok, except_map_ok]
  simp only [List.flatten_cons, List.flatten_append, hflat1, hflat2]
  simp [tupleCmpStr, List.append_assoc]

theorem map_id_of {α : Type} (f : α → α) (l : List α)
    (h : ∀ x ∈ l, f x = x) : l.map f = l := by
  induction l with
  | nil => rfl
  | cons x xs ih =>
    rw [List.map_cons, h x (List.mem_cons_self x xs),
      ih (fun y hy => h y (List.mem_cons_of_mem x hy))]

theorem enumFrom_map_fst {V : Type} (l : List V) :
    ∀ k, (l.enumFrom k).map Prod.fst = List.range' k l.length := by
  induction l with
  | nil => intro k; rfl
  | cons x xs ih =>
    intro k
    simp only [List.enumFrom_cons, List.map_cons, List.length_cons,
      List.range'_succ, ih (k + 1)]

theorem enumFrom_map_snd {V : Type} (l : List V) :
    ∀ k, (l.enumFrom k).map Prod.snd = l := by
  induction l with
  | nil => intro k; rfl
  | cons x xs ih =>
    intro k
    simp only [List.enumFrom_cons, List.map_cons, ih (k + 1)]

/-- C4: after `scrolling_window_order_by(k1..kn, desc=d, keyword=kw)`,
`LIMIT(n, last=falsy)` adds only the LIMIT clause; `LIMIT(n, last=truthy)`
additionally adds, under the recorded keyword, the tuple comparison
`(k1,...,kn) op (:last_0,...,:last_(n-1))` with `op` `<` exactly when
descending and `>` otherwise; and `last_params(cursor)` binds the cursor
values to `last_0..last_(n-1)` in order. -/
theorem C4_keyset_pagination (s0 : SWQuery) (ts : List (List Char))
    (d : Bool) (kw : List Char) (ns : List (List Char)) (hne : ts ≠ [])
    (hts : ∀ t ∈ ts, t ≠ [] ∧ (∀ c ∈ t, c ≠ '\n') ∧ pyStrip t = t) :
    swLIMIT (swob s0 ts d kw) ns false =
      .ok { swob s0 ts d kw with
        q := (addQ (swob s0 ts d kw).q "LIMIT".toList
          (ns.map (fun t => [t]))) } ∧
    swLIMIT (swob s0 ts d kw) ns true =
      .ok { swob s0 ts d kw with
        q := (addQ (addQ (swob s0 ts d kw).q "LIMIT".toList
            (ns.map (fun t => [t]))) kw
          [[tupleCmpStr ts (if d then "<".toList else ">".toList)
            ((List.range ts.length).map (fun i => ':' :: makeLabel i))]]) } ∧
    (∀ (V : Type) (cursor : List V),
      (lastParams (swob s0 ts d kw) (some cursor)).map Prod.fst =
        (List.range cursor.length).map makeLabel ∧
      (lastParams (swob s0 ts d kw) (some cursor)).map Prod.snd =
        cursor) := by
  have hthings : (swob s0 ts d kw).things = ts := by
    show ts.map cleanUp = ts
    exact map_id_of cleanUp ts (fun t ht => by
      obtain ⟨h1, h2, h3⟩ := hts t ht
      exact cleanUp_fixed t h1 h2 h3)
  refine ⟨rfl, ?_, ?_⟩
  · have hop : (if d then "<".toList else ">".toList) = "<".toList ∨
        (if d then "<".toList else ">".toList) = ">".toList := by
      cases d
      · right; rfl
      · left; rfl
    have histr := innerQuery_toStr ts
      (if d then "<".toList else ">".toList) hne hts hop
    simp only [swLIMIT, Bool.true_eq_false, if_false]
    rw [show (swob s0 ts d kw).things = ts from hthings,
      show (swob s0 ts d kw).desc = d from rfl,
      show (swob s0 ts d kw).keyword = kw from rfl, histr,
      except_bind_ok]
  · intro V cursor
    constructor
    · show ((cursor.enumFrom 0).map
        (fun p => (makeLabel p.1, p.2))).map Prod.fst = _
      rw [List.map_map]
      have : (Prod.fst ∘ fun p : Nat × V => (makeLabel p.1, p.2)) =
          (makeLabel ∘ Prod.fst) := rfl
      rw [this, ← List.map_map, enumFrom_map_fst, List.range_eq_range']
    · show ((cursor.enumFrom 0).map
        (fun p => (makeLabel p.1, p.2))).map Prod.snd = _
      rw [List.map_map]
      exact enumFrom_map_snd cursor 0

/-- Witness for C4: keys `feeds.url, entries.id`, ascending, WHERE. -/
theorem C4_keyset_pagination_witness :
    (∀ t ∈ ["feeds.url".toList, "entries.id".toList],
      t ≠ [] ∧ (∀ c ∈ t, c ≠ '\n') ∧ pyStrip t = t) ∧
    swLIMIT (swob newQuery ["feeds.url".toList, "entries.id".toList]
        false "WHERE".toList) ["7".toList] false =
      .ok { swob newQuery ["feeds.url".toList, "entries.id".toList]
          false "WHERE".toList with
        q := (addQ (swob newQuery
          ["feeds.url".toList, "entries.id".toList] false
          "WHERE".toList).q "LIMIT".toList [["7".toList]]) } ∧
    (lastParams (swob newQuery ["feeds.url".toList, "entries.id".toList]
        false "WHERE".toList) (some ["u", "i"])).map Prod.fst =
      (List.range 2).map makeLabel :=
  ⟨by decide,
   (C4_keyset_pagination newQuery
     ["feeds.url".toList, "entries.id".toList] false "WHERE".toList
     ["7".toList] (by decide) (by decide)).1,
   ((C4_keyset_pagination newQuery
     ["feeds.url".toList, "entries.id".toList] false "WHERE".toList
     ["7".toList] (by decide) (by decide)).2.2 String ["u", "i"]).1⟩

/-! ### Round-trip lemmas (C2) -/

theorem applyGo_marked (b a : Char) (v : List Char) :
    ∀ (spans : List (Nat × Nat)) (lo k : Nat),
      applyGo [b] [a] none (2 * k)
        (splitGo v lo (spans.map toSlice)) = marked b a v lo spans := by
  intro spans
  induction spans with
  | nil =>
    intro lo k
    simp [splitGo, applyGo, marked, Nat.mul_mod_right]
  | cons p rest ih =>
    intro lo k
    simp only [List.map_cons, splitGo, toSlice, Option.getD_some,
      Int.toNat_natCast, applyGo, marked]
    have h0 : 2 * k % 2 = 0 := Nat.mul_mod_right 2 k
    have h1 : (2 * k + 1) % 2 = 1 := by omega
    have h2 : 2 * k + 1 + 1 = 2 * (k + 1) := by omega
    rw [h0, h1, h2, ih p.2 (k + 1)]
    simp

theorem reSplitGo_nil (b a : Char) (fuel : Nat) (cur : List Char) :
    reSplitGo [b] [a] fuel cur [] = [cur.reverse] := by
  cases fuel <;> rfl

theorem reSplitGo_consume (b a : Char) :
    ∀ (X : List Char), (∀ c ∈ X, c ≠ b ∧ c ≠ a) →
      ∀ fuel (cur rest : List Char), X.length + rest.length ≤ fuel →
        reSplitGo [b] [a] fuel cur (X ++ rest) =
          reSplitGo [b] [a] (fuel - X.length) (X.reverse ++ cur) rest := by
  intro X
  induction X with
  | nil => intro _ fuel cur rest _; simp
  | cons x X' ih =>
    intro hX fuel cur rest hfuel
    obtain ⟨f, rfl⟩ : ∃ f, fuel = f + 1 := by
      cases fuel with
      | zero => simp at hfuel
      | succ f => exact ⟨f, rfl⟩
    obtain ⟨hxb, hxa⟩ := hX x (List.mem_cons_self x X')
    rw [List.cons_append, reSplitGo]
    rw [if_neg (by
      intro hcon
      have := hcon.2
      simp [leadsWith] at this
      exact hxb this.symm)]
    rw [if_neg (by
      intro hcon
      have := hcon.2
      simp [leadsWith] at this
      exact hxa this.symm)]
    rw [ih (fun c hc => hX c (List.mem_cons_of_mem x hc)) f (x :: cur)
      rest (by simp only [List.length_cons] at hfuel; omega)]
    simp only [List.length_cons, List.reverse_cons, List.append_assoc,
      List.singleton_append]
    congr 1
    omega

theorem reSplitGo_marker_b (b a : Char) (f : Nat) (cur rest : List Char) :
    reSplitGo [b] [a] (f + 1) cur (b :: rest) =
      cur.reverse :: [b] :: reSplitGo [b] [a] f [] rest := by
  rw [reSplitGo, if_pos ⟨by simp, by simp [leadsWith]⟩]
  simp

theorem reSplitGo_marker_a (b a : Char) (hba : b ≠ a) (f : Nat)
    (cur rest : List Char) :
    reSplitGo [b] [a] (f + 1) cur (a :: rest) =
      cur.reverse :: [a] :: reSplitGo [b] [a] f [] rest := by
  rw [reSplitGo]
  rw [if_neg (by
    intro hcon
    have := hcon.2
    simp [leadsWith] at this
    exact hba this)]
  rw [if_pos ⟨by simp, by simp [leadsWith]⟩]
  simp

theorem pySub_subset (v : List Char) (s e : Nat) :
    ∀ c ∈ pySub v s e, c ∈ v := by
  intro c hc
  exact List.take_subset e v (List.drop_subset s _ hc)

theorem pySub_length (v : List Char) (s e : Nat) (h1 : s ≤ e)
    (h2 : e ≤ v.length) : (pySub v s e).length = e - s := by
  simp only [pySub, List.length_drop, List.length_take]
  omega

theorem reSplitGo_marked (b a : Char) (v : List Char) (hba : b ≠ a)
    (hb : b ∉ v) (ha : a ∉ v) :
    ∀ (spans : List (Nat × Nat)) (lo fuel : Nat),
      (marked b a v lo spans).length ≤ fuel →
      reSplitGo [b] [a] fuel [] (marked b a v lo spans) =
        partsL b a v lo spans := by
  intro spans
  induction spans with
  | nil =>
    intro lo fuel hfuel
    have hfree : ∀ c ∈ v.drop lo, c ≠ b ∧ c ≠ a := by
      intro c hc
      have hcv := List.drop_subset lo v hc
      exact ⟨fun hcon => hb (hcon ▸ hcv), fun hcon => ha (hcon ▸ hcv)⟩
    have := reSplitGo_consume b a (v.drop lo) hfree fuel [] []
      (by simpa [marked] using hfuel)
    simp only [List.append_nil] at this
    rw [show marked b a v lo [] = v.drop lo from rfl, this,
      reSplitGo_nil]
    simp [partsL]
  | cons p rest ih =>
    intro lo fuel hfuel
    have hlen : (marked b a v lo (p :: rest)).length =
        (pySub v lo p.1).length + 1 + (pySub v p.1 p.2).length + 1 +
          (marked b a v p.2 rest).length := by
      simp [marked]
      omega
    have hfreeP : ∀ c ∈ pySub v lo p.1, c ≠ b ∧ c ≠ a := by
      intro c hc
      have hcv := pySub_subset v lo p.1 c hc
      exact ⟨fun hcon => hb (hcon ▸ hcv), fun hcon => ha (hcon ▸ hcv)⟩
    have hfreeH : ∀ c ∈ pySub v p.1 p.2, c ≠ b ∧ c ≠ a := by
      intro c hc
      have hcv := pySub_subset v p.1 p.2 c hc
      exact ⟨fun hcon => hb (hcon ▸ hcv), fun hcon => ha (hcon ▸ hcv)⟩
    rw [show marked b a v lo (p :: rest) =
      pySub v lo p.1 ++ (b :: (pySub v p.1 p.2 ++ (a ::
        marked b a v p.2 rest))) by simp [marked]] at hfuel ⊢
    rw [reSplitGo_consume b a _ hfreeP fuel [] _ (by
      simp only [List.length_append, List.length_cons] at hfuel ⊢
      omega)]
    obtain ⟨f1, hf1⟩ : ∃ f1, fuel - (pySub v lo p.1).length = f1 + 1 := by
      have : (pySub v lo p.1).length + 1 ≤ fuel := by
        simp only [List.length_append, List.length_cons] at hfuel
        omega
      exact ⟨fuel - (pySub v lo p.1).length - 1, by omega⟩
    rw [hf1, reSplitGo_marker_b, List.append_nil, List.reverse_reverse]
    rw [reSplitGo_consume b a _ hfreeH f1 [] _ (by
      simp only [List.length_append, List.length_cons] at hfuel ⊢
      omega)]
    obtain ⟨f2, hf2⟩ : ∃ f2, f1 - (pySub v p.1 p.2).length = f2 + 1 := by
      have : (pySub v lo p.1).length + 1 + (pySub v p.1 p.2).length + 1 ≤
          fuel := by
        simp only [List.length_append, List.length_cons] at hfuel
        omega
      exact ⟨f1 - (pySub v p.1 p.2).length - 1, by omega⟩
    rw [hf2, reSplitGo_marker_a b a hba, List.append_nil,
      List.reverse_reverse]
    rw [ih p.2 f2 (by
      simp only [List.length_append, List.length_cons] at hfuel
      omega)]
    rfl

theorem extractLoop_parts (b a : Char) (v : List Char) (hba : b ≠ a)
    (hb : b ∉ v) (ha : a ∉ v) :
    ∀ (spans : List (Nat × Nat)) (lo : Nat)
      (accP : List (List Char)) (accS : List (Nat × Nat)),
      spansOK v.length lo spans = true →
      extractLoop [b] [a] (partsL b a v lo spans) accP lo none accS =
        .ok (accP.reverse ++ splitGo v lo (spans.map toSlice),
             accS.reverse ++ spans) := by
  intro spans
  induction spans with
  | nil =>
    intro lo accP accS _
    have hnotb : v.drop lo ≠ [b] := by
      intro hcon
      exact hb (List.drop_subset lo v (hcon ▸ List.mem_singleton_self b))
    have hnota : v.drop lo ≠ [a] := by
      intro hcon
      exact ha (List.drop_subset lo v (hcon ▸ List.mem_singleton_self a))
    simp only [partsL, extractLoop, if_neg hnotb, if_neg hnota]
    simp [splitGo]
  | cons p rest ih =>
    intro lo accP accS hok
    simp only [spansOK, Bool.and_eq_true, decide_eq_true_eq] at hok
    obtain ⟨⟨⟨h1, h2⟩, h3⟩, h4⟩ := hok
    have hPlen : lo + (pySub v lo p.1).length = p.1 := by
      rw [pySub_length v lo p.1 (by omega) (by omega)]
      omega
    have hHlen : p.1 + (pySub v p.1 p.2).length = p.2 := by
      rw [pySub_length v p.1 p.2 h2 h3]
      omega
    have hnotbP : pySub v lo p.1 ≠ [b] := by
      intro hcon
      exact hb (pySub_subset v lo p.1 b
        (hcon ▸ List.mem_singleton_self b))
    have hnotaP : pySub v lo p.1 ≠ [a] := by
      intro hcon
      exact ha (pySub_subset v lo p.1 a
        (hcon ▸ List.mem_singleton_self a))
    have hnotbH : pySub v p.1 p.2 ≠ [b] := by
      intro hcon
      exact hb (pySub_subset v p.1 p.2 b
        (hcon ▸ List.mem_singleton_self b))
    have hnotaH : pySub v p.1 p.2 ≠ [a] := by
      intro hcon
      exact ha (pySub_subset v p.1 p.2 a
        (hcon ▸ List.mem_singleton_self a))
    have hanotb : ([a] : List Char) ≠ [b] := by
      intro hcon
      exact hba (List.singleton_injective hcon).symm
    simp only [partsL, extractLoop, if_neg hnotbP, if_neg hnotaP,
      if_pos rfl, if_neg hnotbH, if_neg hnotaH, if_neg hanotb, hPlen,
      hHlen]
    rw [ih p.2 (pySub v p.1 p.2 :: pySub v lo p.1 :: accP)
      ((p.1, p.2) :: accS) h4]
    simp only [List.map_cons, splitGo, toSlice, Option.getD_some,
      Int.toNat_natCast, List.reverse_cons, List.append_assoc,
      List.singleton_append, List.cons_append, List.nil_append]
    simp

theorem highlightReason_none (len : Nat) (p : Nat × Nat)
    (h1 : p.1 ≤ p.2) (h2 : p.2 ≤ len) :
    highlightReason len (toSlice p) = none := by
  simp only [highlightReason, toSlice]
  rw [if_neg (by simp), if_neg (by simp), if_neg (by simp),
    if_neg (by simp; omega), if_neg (by simp; omega)]

theorem validateAll_ok (len : Nat) :
    ∀ (spans : List (Nat × Nat)) (lo : Nat),
      spansOK len lo spans = true →
      validateAll len (spans.map toSlice) = .ok () := by
  intro spans
  induction spans with
  | nil => intro lo _; rfl
  | cons p rest ih =>
    intro lo hok
    simp only [spansOK, Bool.and_eq_true, decide_eq_true_eq] at hok
    obtain ⟨⟨⟨_, h2⟩, h3⟩, h4⟩ := hok
    simp only [List.map_cons, validateAll,
      highlightReason_none len p h2 h3]
    exact ih p.2 h4

theorem sliceLe_of_le (p q : Nat × Nat) (h1 : p.1 ≤ p.2)
    (h2 : p.2 ≤ q.1) (h3 : q.1 ≤ q.2) :
    sliceLe (toSlice p) (toSlice q) = true := by
  simp only [sliceLe, sliceKey, toSlice, Option.getD_some, keyLe,
    Bool.or_eq_true, Bool.and_eq_true, decide_eq_true_eq]
  by_cases hlt : p.1 < q.1
  · left
    exact_mod_cast hlt
  · right
    have heq : p.1 = q.1 := by omega
    have hle : p.2 ≤ q.2 := by omega
    exact ⟨by exact_mod_cast heq, by exact_mod_cast hle⟩

theorem spansOK_chain (len : Nat) :
    ∀ (spans : List (Nat × Nat)) (lo : Nat),
      spansOK len lo spans = true →
      List.Chain' (fun x y => sliceLe x y = true)
        (spans.map toSlice) := by
  intro spans
  induction spans with
  | nil => intro lo _; simp
  | cons p rest ih =>
    intro lo hok
    simp only [spansOK, Bool.and_eq_true, decide_eq_true_eq] at hok
    obtain ⟨⟨⟨_, h2⟩, h3⟩, h4⟩ := hok
    cases rest with
    | nil => simp
    | cons q rest2 =>
      have h5 := h4
      simp only [spansOK, Bool.and_eq_true, decide_eq_true_eq] at h5
      obtain ⟨⟨⟨h6, h7⟩, _⟩, _⟩ := h5
      exact List.chain'_cons.mpr
        ⟨sliceLe_of_le p q h2 h6 h7, ih p.2 h4⟩

theorem spansOK_mono (len : Nat) (spans : List (Nat × Nat))
    (lo lo' : Nat) (h : spansOK len lo spans = true) (hle : lo' ≤ lo) :
    spansOK len lo' spans = true := by
  cases spans with
  | nil => rfl
  | cons p rest =>
    simp only [spansOK, Bool.and_eq_true, decide_eq_true_eq] at h ⊢
    obtain ⟨⟨⟨h1, h2⟩, h3⟩, h4⟩ := h
    exact ⟨⟨⟨by omega, h2⟩, h3⟩, h4⟩

theorem spansOK_mem_ge (len : Nat) :
    ∀ (spans : List (Nat × Nat)) (lo : Nat),
      spansOK len lo spans = true → ∀ p ∈ spans, lo ≤ p.1 := by
  intro spans
  induction spans with
  | nil => intro lo _ p hp; cases hp
  | cons q rest ih =>
    intro lo hok p hp
    simp only [spansOK, Bool.and_eq_true, decide_eq_true_eq] at hok
    obtain ⟨⟨⟨h1, h2⟩, _⟩, h4⟩ := hok
    rcases List.mem_cons.mp hp with rfl | hp2
    · exact h1
    · have := ih q.2 h4 p hp2
      omega

theorem overlapCheck_ok (first : Nat × Nat) :
    ∀ (rest : List (Nat × Nat)), (∀ q ∈ rest, first.2 ≤ q.1) →
      overlapCheckLoop (toSlice first) (rest.map toSlice) = .ok () := by
  intro rest
  induction rest with
  | nil => intro _; rfl
  | cons q rest2 ih =>
    intro h
    have hq := h q (List.mem_cons_self q rest2)
    simp only [List.map_cons, overlapCheckLoop, toSlice,
      Option.getD_some]
    rw [if_neg (by simp; omega)]
    exact ih (fun x hx => h x (List.mem_cons_of_mem q hx))

theorem postInit_sorted (v : List Char) (spans : List (Nat × Nat))
    (h : spansOK v.length 0 spans = true) :
    postInit v (spans.map toSlice) = .ok (spans.map toSlice) := by
  have hval := validateAll_ok v.length spans 0 h
  have hsorted : pySorted sliceLe (spans.map toSlice) =
      spans.map toSlice :=
    pySorted_eq_self sliceLe _ (spansOK_chain v.length spans 0 h)
  rw [postInit, hval, except_bind_ok, hsorted]
  cases spans with
  | nil => rfl
  | cons p rest =>
    have hok2 := h
    simp only [spansOK, Bool.and_eq_true, decide_eq_true_eq] at hok2
    obtain ⟨⟨⟨_, _⟩, _⟩, h4⟩ := hok2
    have hmem : ∀ q ∈ rest, p.2 ≤ q.1 :=
      spansOK_mem_ge v.length rest p.2 h4
    simp only [List.map_cons]
    rw [show overlapCheckLoop (toSlice p) (rest.map toSlice) = .ok ()
      from overlapCheck_ok p rest hmem]
    rfl

/-- C2 counterexample: the claim as stated is false.  With
`s = HighlightedString("aa", [slice(0,1)])` and markers `before = "ba"`,
`after = "b"` — non-empty, distinct, and neither a substring of
`s.value` — `apply` yields `"baaba"`, in which the scan finds the
`before` marker twice (the second spanning the inserted `after` marker
and an original character), so `extract` raises `ValueError` instead of
returning `s`. -/
theorem C2_roundtrip_counterexample :
    mkHS "aa".toList [toSlice (0, 1)] =
      .ok ⟨"aa".toList, [toSlice (0, 1)]⟩ ∧
    pyIn "ba".toList "aa".toList = false ∧
    pyIn "b".toList "aa".toList = false ∧
    "ba".toList ≠ [] ∧ "b".toList ≠ [] ∧ "ba".toList ≠ "b".toList ∧
    HighlightedString.apply ⟨"aa".toList, [toSlice (0, 1)]⟩
      "ba".toList "b".toList none = "baaba".toList ∧
    HighlightedString.extract
      (HighlightedString.apply ⟨"aa".toList, [toSlice (0, 1)]⟩
        "ba".toList "b".toList none) "ba".toList "b".toList =
      .error "highlight start marker in highlight" :=
  ⟨rfl, rfl, rfl, by decide, by decide, by decide, rfl, rfl⟩

/-- C2 (amended): for a validly constructed `HighlightedString` and
distinct single-character markers neither of which occurs in the value,
`extract(apply(s, before, after), before, after)` returns `s`. -/
theorem C2_roundtrip_single_char_markers (v : List Char)
    (spans : List (Nat × Nat)) (b a : Char)
    (hok : spansOK v.length 0 spans = true) (hb : b ∉ v) (ha : a ∉ v)
    (hba : b ≠ a) :
    HighlightedString.extract
      (HighlightedString.apply ⟨v, spans.map toSlice⟩ [b] [a] none)
      [b] [a] = .ok ⟨v, spans.map toSlice⟩ := by
  have happly : HighlightedString.apply ⟨v, spans.map toSlice⟩
      [b] [a] none = marked b a v 0 spans := by
    show applyGo [b] [a] none 0 (splitGo v 0 (spans.map toSlice)) = _
    have h := applyGo_marked b a v spans 0 0
    simpa using h
  rw [HighlightedString.extract, happly, reSplit,
    reSplitGo_marked b a v hba hb ha spans 0 _ (le_refl _),
    extractLoop_parts b a v hba hb ha spans 0 [] [] hok]
  simp only [List.reverse_nil, List.nil_append, except_bind_ok]
  rw [mkHS, splitGo_flatten v spans 0 hok, List.drop_zero,
    postInit_sorted v spans hok]
  rfl

/-- Witness for the amended C2 on `HighlightedString('abcd',
[slice(1,3)])` with markers `>` and `<`. -/
theorem C2_roundtrip_single_char_markers_witness :
    spansOK "abcd".toList.length 0 [(1, 3)] = true ∧
    ('>' ∉ "abcd".toList) ∧ ('<' ∉ "abcd".toList) ∧
    HighlightedString.extract
      (HighlightedString.apply ⟨"abcd".toList, [(1, 3)].map toSlice⟩
        ['>'] ['<'] none) ['>'] ['<'] =
      .ok ⟨"abcd".toList, [(1, 3)].map toSlice⟩ :=
  ⟨by decide, by decide, by decide,
   C2_roundtrip_single_char_markers "abcd".toList [(1, 3)] '>' '<'
     (by decide) (by decide) (by decide) (by decide)⟩

/-! ### Migration lemmas (C5, C6) -/

theorem runSteps_events_ge {σ ε : Type} (m : Migration σ ε) :
    ∀ fuel s v u,
      MigEvent.ranStep u ∈ (runSteps m s v fuel).2.1 → v ≤ u := by
  intro fuel
  induction fuel with
  | zero => intro s v u h; simp [runSteps] at h
  | succ fuel ih =>
    intro s v u h
    simp only [runSteps] at h
    split at h
    · simp at h
    · split at h
      · simp at h
      · split at h
        · simp at h
          omega
        · rcases hval : runSteps m _ (v + 1) fuel with ⟨db', evs', err'⟩
          rw [hval] at h
          simp at h
          rcases h with h | h
          · omega
          · have := ih _ (v + 1) u (by rw [hval]; exact h)
            omega

theorem runSteps_ok_version {σ ε : Type} (m : Migration σ ε) :
    ∀ fuel s v db2 evs, v ≤ m.version → fuel = m.version - v →
      runSteps m s v fuel = (db2, evs, none) →
      db2.version = m.version ∧ ∃ s2, db2.schema = some s2 := by
  intro fuel
  induction fuel with
  | zero =>
    intro s v db2 evs hv hfuel h
    have hv2 : v = m.version := by omega
    simp only [runSteps] at h
    cases h
    exact ⟨hv2, _, rfl⟩
  | succ fuel ih =>
    intro s v db2 evs hv hfuel h
    simp only [runSteps] at h
    split at h
    · cases h
      exact ⟨by omega, _, rfl⟩
    · rename_i hvlt
      split at h
      · cases h
      · split at h
        · cases h
        · rename_i s2 hstep
          rcases hval : runSteps m s2 (v + 1) fuel with ⟨db', evs', err'⟩
          rw [hval] at h
          cases h
          exact ih s2 (v + 1) db' evs' (by omega) (by omega) hval

theorem runSteps_fail {σ ε : Type} (m : Migration σ ε) (fs : Nat → σ)
    (e : ε) (w : Nat) (hw : w < m.version) :
    ∀ fuel v, v ≤ w → fuel = m.version - v →
      (∀ u, v ≤ u → u < w →
        ∃ st, m.migrations u = some st ∧ st (fs u) = .ok (fs (u + 1))) →
      (∃ st, m.migrations w = some st ∧ st (fs w) = .error e) →
      runSteps m (fs v) v fuel =
        (⟨some (fs w), w⟩,
         (List.range' v (w - v + 1)).map MigEvent.ranStep,
         some (.user e)) := by
  intro fuel
  induction fuel with
  | zero =>
    intro v hvw hfuel _ _
    omega
  | succ fuel ih =>
    intro v hvw hfuel hok hfail
    by_cases hvw2 : v = w
    · subst hvw2
      obtain ⟨st, hst, hres⟩ := hfail
      simp only [runSteps, hst, hres]
      rw [if_neg (by omega)]
      simp
    · have hvw3 : v < w := by omega
      obtain ⟨st, hst, hres⟩ := hok v (le_refl v) hvw3
      simp only [runSteps, hst, hres]
      rw [if_neg (by omega)]
      have hrec := ih (v + 1) (by omega) (by omega)
        (fun u hu1 hu2 => hok u (by omega) hu2) hfail
      have hr : w - v + 1 = (w - (v + 1) + 1) + 1 := by omega
      rw [hrec, hr]
      simp [List.range'_succ]

/-- C6: migrating a store already at the target version is a no-op — no
creator, no step, unchanged store — and after any successful migration a
second run is such a no-op. -/
theorem C6_migrate_idempotent {σ ε : Type} (m : Migration σ ε)
    (db : DBState σ) :
    (∀ s, db.schema = some s → db.version = m.version →
      migrate m db = (db, [], none)) ∧
    (∀ db2 evs, migrate m db = (db2, evs, none) →
      migrate m db2 = (db2, [], none)) := by
  constructor
  · intro s hs hv
    simp [migrate, hs, hv]
  · intro db2 evs h
    have h2 : db2.version = m.version ∧ ∃ s2, db2.schema = some s2 := by
      unfold migrate at h
      split at h
      · rename_i hnone
        split at h
        · cases h
        · cases h
          exact ⟨rfl, _, rfl⟩
      · rename_i s hs
        split at h
        · cases h
        · split at h
          · rename_i hveq
            cases h
            exact ⟨hveq, _, hs⟩
          · rename_i hvgt hvne
            exact runSteps_ok_version m _ s db.version db2 evs
              (by omega) rfl h
    obtain ⟨hv2, s2, hs2⟩ := h2
    simp [migrate, hs2, hv2]

/-- Witness for C6: a two-step migration run twice. -/
theorem C6_migrate_idempotent_witness :
    migrate (⟨.ok 0, 2, fun _ => none⟩ : Migration Nat String)
      ⟨some 7, 2⟩ = (⟨some 7, 2⟩, [], none) ∧
    migrate (⟨.ok 0, 2, fun _ => none⟩ : Migration Nat String)
      ⟨some 0, 2⟩ = (⟨some 0, 2⟩, [], none) :=
  ⟨(C6_migrate_idempotent ⟨.ok 0, 2, fun _ => none⟩ ⟨some 7, 2⟩).1 7
     rfl rfl,
   (C6_migrate_idempotent ⟨.ok 0, 2, fun _ => none⟩ ⟨none, 0⟩).2
     ⟨some 0, 2⟩ [.ranCreate] rfl⟩

/-- C5: when the step at version `w` fails with a caller error `e` (all
earlier steps succeeding), `migrate` surfaces exactly `e` (not wrapped in
a framework error), persists version `w` — advanced for every completed
step, not for the failed one — and a retry never runs a step below the
persisted version. -/
theorem C5_step_error_resume {σ ε : Type} (m : Migration σ ε)
    (fs : Nat → σ) (e : ε) (v w : Nat) (hvw : v ≤ w) (hw : w < m.version)
    (hok : ∀ u, v ≤ u → u < w →
      ∃ st, m.migrations u = some st ∧ st (fs u) = .ok (fs (u + 1)))
    (hfail : ∃ st, m.migrations w = some st ∧ st (fs w) = .error e) :
    migrate m ⟨some (fs v), v⟩ =
      (⟨some (fs w), w⟩,
       (List.range' v (w - v + 1)).map MigEvent.ranStep,
       some (.user e)) ∧
    (∀ (db2 : DBState σ) u,
      MigEvent.ranStep u ∈ (migrate m db2).2.1 → db2.version ≤ u) := by
  constructor
  · have hrun := runSteps_fail m fs e w hw (m.version - v) v hvw rfl hok
      hfail
    simp only [migrate]
    rw [if_neg (by omega), if_neg (by omega)]
    exact hrun
  · intro db2 u h
    unfold migrate at h
    split at h
    · split at h <;> simp at h
    · split at h
      · simp at h
      · split at h
        · simp at h
        · exact runSteps_events_ge m _ _ db2.version u h

/-- Witness for C5: step 1 succeeds, step 2 fails with `"boom"`. -/
theorem C5_step_error_resume_witness :
    migrate
      (⟨.ok 0, 3,
        fun u =>
          if u = 1 then some (fun s => .ok (s + 1))
          else if u = 2 then some (fun _ => .error "boom")
          else none⟩ : Migration Nat String)
      ⟨some 1, 1⟩ =
      (⟨some 2, 2⟩, [.ranStep 1, .ranStep 2], some (.user "boom")) := by
  have h := (C5_step_error_resume
    (⟨.ok 0, 3,
      fun u =>
        if u = 1 then some (fun s => .ok (s + 1))
        else if u = 2 then some (fun _ => .error "boom")
        else none⟩ : Migration Nat String)
    (fun u => u) "boom" 1 2 (by omega) (by decide)
    (fun u hu1 hu2 => by
      have : u = 1 := by omega
      subst this
      exact ⟨_, rfl, rfl⟩)
    ⟨_, rfl, rfl⟩).1
  simpa using h

/-- Witness for C3 at concrete keywords and a concrete builder. -/
theorem C3_keyword_precedence_witness :
    (sortedPairs [("WHERE".toList, [["a".toList]]),
                  ("SELECT".toList, [["b".toList]])]).Perm
      [("WHERE".toList, [["a".toList]]),
       ("SELECT".toList, [["b".toList]])] ∧
    pyIn "JOIN".toList "LEFT JOIN".toList = true ∧
    keywordKey "LEFT JOIN".toList = some 8 ∧
    keywordKey "INSERT OR IGNORE".toList = some 1 ∧
    keywordKey "REPLACE INTO".toList = some 1 ∧
    keywordKey "UPDATE OR ABORT".toList = some 3 ∧
    keywordKey "DELETE FROM".toList = some 5 ∧
    keywordKey "zzz".toList = none :=
  ⟨(C3_keyword_precedence _).1,
   by decide,
   (C3_keyword_precedence []).2.2.2.2.2.1 "LEFT JOIN".toList (by decide),
   (C3_keyword_precedence []).2.2.2.2.2.2.1 "INSERT OR IGNORE".toList
     (by decide) (by decide),
   (C3_keyword_precedence []).2.2.2.2.2.2.2.1 "REPLACE INTO".toList
     (by decide) (by decide),
   (C3_keyword_precedence []).2.2.2.2.2.2.2.2.1 "UPDATE OR ABORT".toList
     (by decide) (by decide) (by decide) (by decide),
   (C3_keyword_precedence []).2.2.2.2.2.2.2.2.2.1 "DELETE FROM".toList
     (by decide) (by decide) (by decide) (by decide) (by decide),
   (C3_keyword_precedence []).2.2.2.2.2.2.2.2.2.2 "zzz".toList
     (by decide) (by decide) (by decide) (by decide) (by decide)
     (by decide)⟩

/-- C1: the claim says constructing a `HighlightedString` from individually
valid but mutually overlapping slices always raises `ValueError`.  The code
does not: its overlap loop never advances `prev_highlight`, so it only
compares the first slice against the others.  Here `slice(2,5)` and
`slice(3,4)` overlap (positions 3 and 4 lie in both), every slice is
individually valid, yet construction succeeds. -/
theorem C1_overlapping_slices_accepted :
    mkHS "abcdef".toList [toSlice (0, 1), toSlice (2, 5), toSlice (3, 4)] =
      .ok ⟨"abcdef".toList,
           [toSlice (0, 1), toSlice (2, 5), toSlice (3, 4)]⟩ ∧
    validateAll "abcdef".toList.length
      [toSlice (0, 1), toSlice (2, 5), toSlice (3, 4)] = .ok () ∧
    max 2 3 < min 5 4 := by
  exact ⟨rfl, rfl, by decide⟩

/-- C10: an all-uppercase attribute `N` called with fragments is
`add(N.replace('_', ' '), fragments)` on the same builder; any other
attribute raises `AttributeError`. -/
theorem C10_getattr_registers_clause (q : BQ) (name : List Char)
    (things : List (List (List Char))) :
    (pyIsUpper name = true →
      getattrQ q name things =
        .ok (addQ q (name.map (fun c => if c = '_' then ' ' else c))
          things)) ∧
    (pyIsUpper name = false →
      getattrQ q name things = .error "AttributeError") := by
  constructor
  · intro h
    simp [getattrQ, h]
  · intro h
    simp [getattrQ, h]

/-- Witness for C10 at concrete inputs. -/
theorem C10_getattr_registers_clause_witness :
    pyIsUpper "GROUP_BY".toList = true ∧
    getattrQ [] "GROUP_BY".toList [["x".toList]] =
      .ok (addQ [] ("GROUP_BY".toList.map
        (fun c => if c = '_' then ' ' else c)) [["x".toList]]) ∧
    pyIsUpper "where".toList = false ∧
    getattrQ [] "where".toList [["x".toList]] = .error "AttributeError" :=
  ⟨by decide,
   (C10_getattr_registers_clause [] "GROUP_BY".toList [["x".toList]]).1
     (by decide),
   by decide,
   (C10_getattr_registers_clause [] "where".toList [["x".toList]]).2
     (by decide)⟩

/-- C9: fragments under one keyword are joined with the keyword-specific
separator — newline plus the repeated keyword for JOIN-like keywords,
`" AND"` for `WHERE` and `HAVING`, a comma otherwise — and the
`WHERE a=1` / `WHERE b=2` scenario renders one WHERE block joined with
AND. -/
theorem C9_separators (kw : List Char) :
    (pyIn "JOIN".toList kw = true → getSeparator kw = '\n' :: kw) ∧
    getSeparator "WHERE".toList = " AND".toList ∧
    getSeparator "HAVING".toList = " AND".toList ∧
    (pyIn "JOIN".toList kw = false → kw ≠ "WHERE".toList →
      kw ≠ "HAVING".toList → getSeparator kw = ",".toList) ∧
    qToStr (addQ (addQ [] "WHERE".toList [["a=1".toList]])
        "WHERE".toList [["b=2".toList]]) =
      .ok "WHERE\n    a=1 AND\n    b=2\n;\n".toList := by
  refine ⟨?_, by decide, by decide, ?_, by rfl⟩
  · intro h
    simp only [getSeparator, h]
    simp
  · intro h h1 h2
    simp only [getSeparator, h]
    simp at h1 h2
    simp [h1, h2]

/-- Witness for C9 at concrete keywords. -/
theorem C9_separators_witness :
    pyIn "JOIN".toList "LEFT JOIN".toList = true ∧
    getSeparator "LEFT JOIN".toList = '\n' :: "LEFT JOIN".toList ∧
    pyIn "JOIN".toList "GROUP BY".toList = false ∧
    getSeparator "GROUP BY".toList = ",".toList :=
  ⟨by decide,
   (C9_separators "LEFT JOIN".toList).1 (by decide),
   by decide,
   (C9_separators "GROUP BY".toList).2.2.2.1 (by decide) (by decide)
     (by decide)⟩

end Reader
